import Mathlib

/-!
# Blog content pipeline of 0xos4ma.github.io

A shallow embedding of the post filter (`src/js/blog.js`) and of the
Markdown / metadata steps of the detail page (`src/js/post.js`).

JavaScript strings are modelled as lists of characters. Whitespace is the
ECMAScript `WhiteSpace` + `LineTerminator` set used by `trim` and by the
regular-expression class `\s`. The built-in `String.prototype.toLowerCase`
is a parameter `lower` of every function that calls it: what is proved for
every `lower` holds for the built-in. `asciiToLowerCase` is its restriction to
ASCII, used where a concrete function is needed and for the `i` flag of the
regular expression in `post.js`.
-/

namespace Blog

/-- A JavaScript string. -/
abbrev Str := List Char

/-! ## String primitives -/

/-- The code points matched by `\s` and stripped by `String.prototype.trim`. -/
def isWhiteSpace (c : Char) : Bool :=
  let n := c.toNat
  n == 9 || n == 10 || n == 11 || n == 12 || n == 13 || n == 32 || n == 160 ||
  n == 0x1680 || (0x2000 ≤ n && n ≤ 0x200A) || n == 0x2028 || n == 0x2029 ||
  n == 0x202F || n == 0x205F || n == 0x3000 || n == 0xFEFF

/-- ASCII lowercasing: `A`-`Z` go to `a`-`z`, every other character stays.
On a string of ASCII characters this is what `s.toLowerCase()` returns, and it
is the case folding of the flag `i` on the letters of an ASCII pattern. -/
def asciiToLowerCase (s : Str) : Str := s.map Char.toLower

/-- The method `s.trim()`. -/
def trim (s : Str) : Str :=
  ((s.dropWhile isWhiteSpace).reverse.dropWhile isWhiteSpace).reverse

/-- The method `s.startsWith(p)`. -/
def startsWith : Str → Str → Bool
  | _, [] => true
  | [], _ :: _ => false
  | c :: cs, p :: ps => c == p && startsWith cs ps

/-- The method `s.includes(t)`. -/
def includes : Str → Str → Bool
  | [], t => startsWith [] t
  | c :: cs, t => startsWith (c :: cs) t || includes cs t

/-- Scanner behind `replace(/\s+/g, '-')`: `inRun` records that the previous
character was whitespace, so the current run has already produced its hyphen. -/
def replaceWsAux : Bool → Str → Str
  | _, [] => []
  | inRun, c :: cs =>
    if isWhiteSpace c then
      if inRun then replaceWsAux true cs else '-' :: replaceWsAux true cs
    else c :: replaceWsAux false cs

/-- The call `s.replace(/\s+/g, '-')`. -/
def replaceWhitespaceRuns (s : Str) : Str := replaceWsAux false s

/-- The expression `cat.toLowerCase().replace(/\s+/g, '-')` used for category
keys; `lower` is the built-in `toLowerCase`. -/
def categoryKey (lower : Str → Str) (cat : Str) : Str := replaceWhitespaceRuns (lower cat)

/-- JavaScript truthiness of a string. -/
def truthy (s : Str) : Bool := !s.isEmpty

/-! ## Data model -/

/-- A record of `data/posts.json`. -/
structure Post where
  id : Str
  title : Str
  excerpt : Str
  date : Str
  categories : List Str
  tags : Option (List Str)
  image : Option Str
  contentPath : Option Str
  contentFile : Option Str
  seoTitle : Option Str
  seoDescription : Option Str
deriving DecidableEq, Repr

/-- An element matching `.filter-btn`: whether its class list holds `active`,
and its `data-category` attribute (`none` when the attribute is missing). -/
structure FilterBtn where
  active : Bool
  dataCategory : Option Str
deriving DecidableEq, Repr

/-- The `#blog-posts` grid: its `style.display` and the posts whose cards it shows. -/
structure Grid where
  display : Str
  cards : List Post
deriving DecidableEq, Repr

/-- The state of the blog page: the two page-level variables of `blog.js`
and the part of the document the script reads and writes. -/
structure BlogPage where
  allPosts : List Post
  filteredPosts : List Post
  filterBtns : List FilterBtn
  searchInput : Option Str
  postsContainer : Option Grid
  noPostsMessage : Option Str
deriving DecidableEq, Repr

/-- The result of running a function of the page: the state it leaves and
whether it ended by throwing a `TypeError`. -/
structure Run where
  page : BlogPage
  threw : Bool
deriving DecidableEq, Repr

/-! ## `blog.js` -/

/-- The function `displayPosts(posts)`. -/
def displayPosts (posts : List Post) (pg : BlogPage) : Run :=
  match pg.postsContainer with
  | none => ⟨pg, false⟩
  | some grid =>
    if posts.length == 0 then
      let pg1 := { pg with postsContainer := some { grid with display := "none".toList } }
      match pg1.noPostsMessage with
      | none => ⟨pg1, true⟩
      | some _ => ⟨{ pg1 with noPostsMessage := some "block".toList }, false⟩
    else
      let pg1 := { pg with postsContainer := some { grid with display := "grid".toList } }
      match pg1.noPostsMessage with
      | none => ⟨pg1, true⟩
      | some _ =>
        ⟨{ pg1 with noPostsMessage := some "none".toList,
                    postsContainer := some ⟨"grid".toList, posts⟩ }, false⟩

/-- The value of `currentCategory` in `performSearch`: the `data-category` of
the first `.filter-btn.active` element, or `'all'` when there is none. The
result `none` is JavaScript `null` (the attribute is missing). -/
def currentCategory (pg : BlogPage) : Option Str :=
  match pg.filterBtns.find? (fun b => b.active) with
  | some b => b.dataCategory
  | none => some "all".toList

/-- The category filter `post.categories.some(cat => key(cat) === category)`. -/
def matchesCategory (lower : Str → Str) (category : Option Str) (post : Post) : Bool :=
  post.categories.any (fun cat => decide (some (categoryKey lower cat) = category))

/-- The search filter of `performSearch` for a non-empty `term`. -/
def matchesTerm (lower : Str → Str) (term : Str) (post : Post) : Bool :=
  includes (lower post.title) term ||
  includes (lower post.excerpt) term ||
  post.categories.any (fun cat => includes (lower cat) term) ||
  (match post.tags with
   | none => false
   | some tags => tags.any (fun tag => includes (lower tag) term))

/-- The function `performSearch(searchTerm)`; `lower` is the built-in `toLowerCase`. -/
def performSearch (lower : Str → Str) (searchTerm : Str) (pg : BlogPage) : Run :=
  let term := trim (lower searchTerm)
  let currentCategory := currentCategory pg
  let postsToSearch :=
    if currentCategory ≠ some "all".toList then
      pg.allPosts.filter (matchesCategory lower currentCategory)
    else pg.allPosts
  let filteredPosts :=
    if term = [] then postsToSearch
    else postsToSearch.filter (matchesTerm lower term)
  displayPosts filteredPosts { pg with filteredPosts := filteredPosts }

/-- The function `filterPostsByCategory(category)`; `lower` is the built-in
`toLowerCase`. -/
def filterPostsByCategory (lower : Str → Str) (category : Str) (pg : BlogPage) : Run :=
  let filteredPosts :=
    if category = "all".toList then pg.allPosts
    else pg.allPosts.filter (matchesCategory lower (some category))
  let pg1 := { pg with filteredPosts := filteredPosts }
  match pg1.searchInput with
  | some value =>
    if truthy (trim value) then performSearch lower value pg1
    else displayPosts pg1.filteredPosts pg1
  | none => displayPosts pg1.filteredPosts pg1

/-! ## Sample data (the index of the specification's examples) -/

/-- Post `a1` of the example index. -/
def postA1 : Post :=
  { id := "a1".toList, title := "SQL Injection 101".toList, excerpt := "...".toList,
    date := "2024-01-05".toList, categories := ["Web Security".toList],
    tags := none, image := none, contentPath := none, contentFile := none,
    seoTitle := none, seoDescription := none }

/-- Post `a2` of the example index. -/
def postA2 : Post :=
  { id := "a2".toList, title := "Firewalls".toList, excerpt := "...".toList,
    date := "2024-02-01".toList, categories := ["Network".toList],
    tags := none, image := none, contentPath := none, contentFile := none,
    seoTitle := none, seoDescription := none }

/-- A blog page holding the example index, with the given buttons and search box. -/
def samplePage (btns : List FilterBtn) (search : Option Str) : BlogPage :=
  { allPosts := [postA1, postA2], filteredPosts := [postA1, postA2],
    filterBtns := btns, searchInput := search,
    postsContainer := some ⟨"grid".toList, []⟩, noPostsMessage := some "none".toList }

/-! ## `post.js`: data -/

/-- The attributes of a `meta` element that `injectDynamicSeo` reads or writes. -/
inductive AttrKey where
  | name
  | property
  | content
deriving DecidableEq, Repr

/-- A `meta` element of `document.head`, by its three attributes (`none`: not set). -/
structure MetaEl where
  name : Option Str
  property : Option Str
  content : Option Str
deriving DecidableEq, Repr

/-- A selector of the form `meta[key="value"]`. -/
structure Selector where
  key : AttrKey
  value : Str
deriving DecidableEq, Repr

/-- A node of the rendered Markdown, in document order: an `img` element with
its `src` attribute (`none`: no such attribute), or any other markup. -/
inductive HtmlNode where
  | img (src : Option Str)
  | other (html : Str)
deriving DecidableEq, Repr

/-- What the `#post-content` element holds. -/
inductive Content where
  | initial
  | errorMessage (message : Str)
  | rendered (nodes : List HtmlNode)
deriving DecidableEq, Repr

/-- The outcome of `fetch(path)` followed by `response.text()`: the promise is
rejected (network error), or it resolves with a response of some HTTP status. -/
inductive FetchResult where
  | rejected
  | response (status : Nat) (body : Str)
deriving DecidableEq, Repr

/-- The state of the detail page: the page-level variables of `post.js`, the
text of the `title` element as last assigned to `document.title`, the page
URL, the `meta` elements of the head in document order, and the
`#post-content` element (`none`: the element is absent). -/
structure PostPage where
  allPosts : List Post
  currentPost : Option Post
  title : Str
  href : Str
  head : List MetaEl
  postContent : Option Content
deriving DecidableEq, Repr

/-- The result of running a function of the detail page: the state it leaves
and whether it ended by throwing a `TypeError`. -/
structure PostRun where
  page : PostPage
  threw : Bool
deriving DecidableEq, Repr

/-! ## `post.js`: asset paths -/

/-- The call `s.lastIndexOf(c)`, scanning from the left; `acc` is the answer so far. -/
def lastIndexOfAux (c : Char) : Str → Nat → Int → Int
  | [], _, acc => acc
  | x :: xs, i, acc => lastIndexOfAux c xs (i + 1) (if x == c then (i : Int) else acc)

/-- The method `s.lastIndexOf(c)`: -1 when `c` does not occur. -/
def lastIndexOf (s : Str) (c : Char) : Int := lastIndexOfAux c s 0 (-1)

/-- The method `s.substring(start, end)`: both indices are clamped to
`0 .. s.length` and swapped when out of order. -/
def substring (s : Str) (start stop : Int) : Str :=
  let a := (min (max start 0) s.length).toNat
  let b := (min (max stop 0) s.length).toNat
  (s.drop (min a b)).take (max a b - min a b)

/-- The value of `baseDir`: `contentPath.substring(0, contentPath.lastIndexOf('/'))`. -/
def baseDirOf (contentPath : Str) : Str :=
  substring contentPath 0 (lastIndexOf contentPath '/')

/-- The test `/^(https?:)?\/\//i.test(src)`: the src begins with `//`, or with
`http://` or `https://` in any letter case (the flag `i`, without the flag
`u`, folds the ASCII letters of the pattern only). -/
def isProtocolUrl (src : Str) : Bool :=
  startsWith src "//".toList ||
  startsWith (asciiToLowerCase src) "http://".toList ||
  startsWith (asciiToLowerCase src) "https://".toList

/-- The guard of the rewrite: `/^(https?:)?\/\//i.test(src) || src.startsWith('/')`. -/
def isSkipped (src : Str) : Bool := isProtocolUrl src || startsWith src "/".toList

/-- The call `src.replace(/^\.\//, '')`. -/
def stripDotSlash : Str → Str
  | '.' :: '/' :: rest => rest
  | s => s

/-- The body of `imgs.forEach` on the `src` attribute of one image: the
attribute after the step. -/
def rewriteSrc (baseDir : Str) (attr : Option Str) : Option Str :=
  let src := attr.getD []
  if isSkipped src then attr
  else some (baseDir ++ '/' :: stripDotSlash src)

/-- The rewrite applied to a node: only `img` elements are visited. -/
def rewriteNode (baseDir : Str) : HtmlNode → HtmlNode
  | .img src => .img (rewriteSrc baseDir src)
  | .other html => .other html

/-! ## `post.js`: rendering -/

/-- The function `showError(message)`. -/
def showError (message : Str) (pg : PostPage) : PostRun :=
  match pg.postContent with
  | none => ⟨pg, true⟩
  | some _ => ⟨{ pg with postContent := some (.errorMessage message) }, false⟩

/-- The value of `contentPath`: `post.contentPath`, or the template string
built from `post.contentFile` (a missing field prints as `undefined`). -/
def contentPathOf (post : Post) : Str :=
  let derived := "posts/".toList ++ (match post.contentFile with
    | some f => f
    | none => "undefined".toList)
  match post.contentPath with
  | some p => if truthy p then p else derived
  | none => derived

/-- The function `renderMarkdownContent(post)`. The Markdown converter
`marked.parse` and the network (`fetch`, then `response.text()`) are
parameters. The style sheet and the lightbox it adds afterwards are outside
the state modelled here. -/
def renderMarkdownContent (marked : Str → List HtmlNode) (fetch : Str → FetchResult)
    (post : Post) (pg : PostPage) : PostRun :=
  let contentPath := contentPathOf post
  match fetch contentPath with
  | .rejected => showError "Unable to load post content".toList pg
  | .response _ markdownContent =>
    let htmlContent := marked markdownContent
    let baseDir := baseDirOf contentPath
    match pg.postContent with
    | none => showError "Unable to load post content".toList pg
    | some _ =>
      ⟨{ pg with postContent := some (.rendered (htmlContent.map (rewriteNode baseDir))) }, false⟩

/-! ## `post.js`: metadata -/

/-- Reading an attribute of a `meta` element. -/
def MetaEl.get (el : MetaEl) : AttrKey → Option Str
  | .name => el.name
  | .property => el.property
  | .content => el.content

/-- The call `el.setAttribute(k, v)`. -/
def MetaEl.set (el : MetaEl) (k : AttrKey) (v : Str) : MetaEl :=
  match k with
  | .name => { el with name := some v }
  | .property => { el with property := some v }
  | .content => { el with content := some v }

/-- The loop `Object.entries(attrs).forEach(([k,v]) => el.setAttribute(k, v))`. -/
def setAttrs (attrs : List (AttrKey × Str)) (el : MetaEl) : MetaEl :=
  attrs.foldl (fun e kv => e.set kv.1 kv.2) el

/-- Whether a `meta` element matches a selector. -/
def matchesSelector (sel : Selector) (el : MetaEl) : Bool :=
  decide (el.get sel.key = some sel.value)

/-- Replace the first element that satisfies `p` by its image under `f`. -/
def modifyFirst (p : MetaEl → Bool) (f : MetaEl → MetaEl) : List MetaEl → List MetaEl
  | [] => []
  | el :: rest => if p el then f el :: rest else el :: modifyFirst p f rest

/-- The helper `ensureMeta(selector, attrs)` of `injectDynamicSeo`, on the
`meta` elements of the head. -/
def ensureMeta (sel : Selector) (attrs : List (AttrKey × Str)) (head : List MetaEl) :
    List MetaEl :=
  if head.any (matchesSelector sel) then
    modifyFirst (matchesSelector sel) (setAttrs attrs) head
  else
    head ++ [setAttrs attrs ⟨none, none, none⟩]

/-- The operator `a || b` on an optional string `a`. -/
def orElse (a : Option Str) (b : Str) : Str :=
  match a with
  | some s => if truthy s then s else b
  | none => b

/-- The constant `siteName`. -/
def siteName : Str := "0xos4ma".toList

/-- The value of `seoTitle` in `injectDynamicSeo`. -/
def seoTitleOf (post : Post) : Str :=
  orElse post.seoTitle (post.title ++ " | ".toList ++ siteName)

/-- The value of `description` in `injectDynamicSeo`. -/
def descriptionOf (post : Post) : Str :=
  orElse post.seoDescription (orElse (some post.excerpt) "Cybersecurity insights".toList)

/-- The call `ensureMeta` on the selector `meta[name="k"]` with the attributes
`name: k` and `content: v`. -/
def ensureNamed (k v : Str) (head : List MetaEl) : List MetaEl :=
  ensureMeta ⟨.name, k⟩ [(.name, k), (.content, v)] head

/-- The call `ensureMeta` on the selector `meta[property="k"]` with the attributes
`property: k` and `content: v`. -/
def ensureProperty (k v : Str) (head : List MetaEl) : List MetaEl :=
  ensureMeta ⟨.property, k⟩ [(.property, k), (.content, v)] head

/-- The two image calls of `injectDynamicSeo`, guarded by `if (post.image)`. -/
def ensureImage (post : Post) (head : List MetaEl) : List MetaEl :=
  match post.image with
  | some image =>
    if truthy image then
      ensureNamed "twitter:image".toList image (ensureProperty "og:image".toList image head)
    else head
  | none => head

/-- The function `injectDynamicSeo(post)`. -/
def injectDynamicSeo (post : Post) (pg : PostPage) : PostPage :=
  let seoTitle := seoTitleOf post
  let description := descriptionOf post
  let h1 := ensureNamed "description".toList description pg.head
  let h2 := ensureProperty "og:title".toList seoTitle h1
  let h3 := ensureProperty "og:description".toList description h2
  let h4 := ensureProperty "og:type".toList "article".toList h3
  let h5 := ensureProperty "og:url".toList pg.href h4
  let h6 := ensureProperty "og:site_name".toList siteName h5
  let h7 := ensureImage post h6
  let h8 := ensureNamed "twitter:card".toList "summary_large_image".toList h7
  let h9 := ensureNamed "twitter:title".toList seoTitle h8
  let h10 := ensureNamed "twitter:description".toList description h9
  { pg with title := seoTitle, head := h10 }

/-- The content of the first `meta` element that matches a selector. -/
def metaContent (sel : Selector) (head : List MetaEl) : Option Str :=
  (head.find? (matchesSelector sel)).bind (fun el => el.content)

/-- One upsert of `injectDynamicSeo`: `ensureMeta` on a selector, with the
selector's own attribute and the content `v`. -/
def ensureField (sel : Selector) (v : Str) (head : List MetaEl) : List MetaEl :=
  ensureMeta sel [(sel.key, sel.value), (.content, v)] head

/-- The upserts that `injectDynamicSeo(post)` performs, in order, on a page at
URL `href`: the selector and the content written. -/
def seoWrites (post : Post) (href : Str) : List (Selector × Str) :=
  [(⟨.name, "description".toList⟩, descriptionOf post),
   (⟨.property, "og:title".toList⟩, seoTitleOf post),
   (⟨.property, "og:description".toList⟩, descriptionOf post),
   (⟨.property, "og:type".toList⟩, "article".toList),
   (⟨.property, "og:url".toList⟩, href),
   (⟨.property, "og:site_name".toList⟩, siteName)] ++
  (match post.image with
   | some image =>
     if truthy image then
       [(⟨.property, "og:image".toList⟩, image), (⟨.name, "twitter:image".toList⟩, image)]
     else []
   | none => []) ++
  [(⟨.name, "twitter:card".toList⟩, "summary_large_image".toList),
   (⟨.name, "twitter:title".toList⟩, seoTitleOf post),
   (⟨.name, "twitter:description".toList⟩, descriptionOf post)]

/-- No `meta` element of the head carries both a `name` and a `property`
attribute, so no element answers to two metadata keys. -/
def separateKeys (head : List MetaEl) : Bool :=
  head.all (fun el => el.name.isNone || el.property.isNone)

/-- Post `a1` of the example index with a cover image and a body path. -/
def postWithCover : Post :=
  { postA1 with image := some "images/cover.png".toList,
                contentPath := some "posts/2024/post.md".toList }

/-- A detail page with an empty head and an empty content element. -/
def samplePostPage : PostPage :=
  { allPosts := [postA1, postA2], currentPost := none, title := "Post".toList,
    href := "https://0xos4ma.github.io/post.html?id=a1".toList, head := [],
    postContent := some .initial }

/-! ## `blog.js`: category buttons -/

/-- The function `getAllCategories(posts)`: the labels of all posts, each once,
in the order a `Set` keeps them (first insertion). -/
def getAllCategories (posts : List Post) : List Str :=
  posts.foldl
    (fun categories post =>
      post.categories.foldl (fun acc c => if c ∈ acc then acc else acc ++ [c]) categories)
    []

/-- The function `createCategoryFilters(posts)` on a page whose `.filter-buttons`
container exists: from the elements the container holds to the elements it
holds afterwards. The "all" button, when there is one, is kept; one button per
category label follows, with class `filter-btn` only and the generated key as
`data-category`; `lower` is the built-in `toLowerCase`. -/
def createCategoryFilters (lower : Str → Str) (posts : List Post)
    (children : List FilterBtn) : List FilterBtn :=
  let allButton := children.find? (fun b => decide (b.dataCategory = some "all".toList))
  (match allButton with
   | some b => [b]
   | none => []) ++
  (getAllCategories posts).map (fun category => ⟨false, some (categoryKey lower category)⟩)

/-! ## `post.js`: the detail page -/

/-- The outcome of `fetch('data/posts.json')` followed by `response.json()`:
the fetch or the parse fails, or the index is loaded. -/
inductive IndexLoad where
  | failed
  | loaded (posts : List Post)
deriving DecidableEq, Repr

/-- The header elements of the detail page, each `none` when the element is
absent: the text of `#post-title-breadcrumb`, `#post-title` and `#post-date`,
the category tags of `#post-categories`, the `href` of `#canonical-link`, the
`style.display` of `#post-cover` and the `src` of `#post-cover-img`. -/
structure PostHeader where
  breadcrumb : Option Str
  postTitle : Option Str
  postDate : Option Str
  postCategories : Option (List Str)
  canonicalHref : Option Str
  coverDisplay : Option Str
  coverImgSrc : Option Str
deriving DecidableEq, Repr

/-- The detail page with its header elements. -/
structure DetailPage where
  page : PostPage
  header : PostHeader
deriving DecidableEq, Repr

/-- The result of running a function of the detail page. -/
structure DetailRun where
  detail : DetailPage
  threw : Bool
deriving DecidableEq, Repr

/-- The function `showError(message)` on the detail page. -/
def showErrorDetail (message : Str) (dp : DetailPage) : DetailRun :=
  ⟨{ dp with page := (showError message dp.page).page }, (showError message dp.page).threw⟩

/-- The `catch` block of `loadPostContent`: `showError('Unable to load post content')`. -/
def loadPostContentCatch (dp : DetailPage) : DetailRun :=
  showErrorDetail "Unable to load post content".toList dp

/-- The cover step of `loadPostContent`: `if (currentPost.image)` and, inside,
`if (cover && coverImg)`. -/
def showCover (post : Post) (h : PostHeader) : PostHeader :=
  match post.image with
  | some image =>
    if truthy image then
      match h.coverDisplay, h.coverImgSrc with
      | some _, some _ => { h with coverImgSrc := some image, coverDisplay := some "block".toList }
      | _, _ => h
    else h
  | none => h

/-- The function `loadPostContent(postId)`. The date formatter of `main.js`,
the Markdown converter and the network are parameters. Each access to an
absent element throws and is caught by the function's own `catch` block. -/
def loadPostContent (formatDate : Str → Str) (marked : Str → List HtmlNode)
    (fetch : Str → FetchResult) (postId : Str) (dp : DetailPage) : DetailRun :=
  let currentPost := dp.page.allPosts.find? (fun post => decide (post.id = postId))
  let dp0 : DetailPage := { dp with page := { dp.page with currentPost := currentPost } }
  match currentPost with
  | none =>
    let r := showErrorDetail "Post not found".toList dp0
    if r.threw then loadPostContentCatch r.detail else r
  | some post =>
    let pg1 := injectDynamicSeo post dp0.page
    let dp1 : DetailPage := { dp0 with page := pg1 }
    match dp1.header.breadcrumb with
    | none => loadPostContentCatch dp1
    | some _ =>
      let h2 : PostHeader :=
        { dp1.header with
            breadcrumb := some post.title,
            canonicalHref := dp1.header.canonicalHref.map (fun _ => pg1.href) }
      let head2 := modifyFirst (matchesSelector ⟨.property, "og:url".toList⟩)
        (fun el => el.set .content pg1.href) pg1.head
      let pg2 : PostPage := { pg1 with head := head2 }
      match h2.postTitle with
      | none => loadPostContentCatch ⟨pg2, h2⟩
      | some _ =>
        let h3 : PostHeader := { h2 with postTitle := some post.title }
        match h3.postDate with
        | none => loadPostContentCatch ⟨pg2, h3⟩
        | some _ =>
          let h4 : PostHeader := { h3 with postDate := some (formatDate post.date) }
          match h4.postCategories with
          | none => loadPostContentCatch ⟨pg2, h4⟩
          | some _ =>
            let h5 : PostHeader := { h4 with postCategories := some post.categories }
            let h6 := showCover post h5
            let r := renderMarkdownContent marked fetch post pg2
            if r.threw then loadPostContentCatch ⟨r.page, h6⟩ else ⟨⟨r.page, h6⟩, false⟩

/-- The function `loadPostData()` for a given outcome of the index load. -/
def loadPostData (index : IndexLoad) (dp : DetailPage) : DetailRun :=
  match index with
  | .loaded posts => ⟨{ dp with page := { dp.page with allPosts := posts } }, false⟩
  | .failed => showErrorDetail "Unable to load post data".toList dp

/-- The function `initializePostPage()`; `postId` is the value of the `id`
query parameter (`none`: no such parameter). The share links that
`initializePostShareButtons` sets at the end are outside the state modelled. -/
def initializePostPage (formatDate : Str → Str) (marked : Str → List HtmlNode)
    (fetch : Str → FetchResult) (postId : Option Str) (index : IndexLoad)
    (dp : DetailPage) : DetailRun :=
  match postId with
  | none => showErrorDetail "Post not found".toList dp
  | some id =>
    if truthy id then
      let r1 := loadPostData index dp
      if r1.threw then r1
      else loadPostContent formatDate marked fetch id r1.detail
    else showErrorDetail "Post not found".toList dp

/-- A detail page as it is when the script starts: no post loaded, every
element present and untouched. -/
def initialDetailPage : DetailPage :=
  { page := { allPosts := [], currentPost := none, title := "Post".toList,
              href := "https://0xos4ma.github.io/post.html?id=a1".toList, head := [],
              postContent := some .initial },
    header := { breadcrumb := some [], postTitle := some [], postDate := some [],
                postCategories := some [], canonicalHref := some [],
                coverDisplay := some "none".toList, coverImgSrc := some [] } }

/-! ## `post.js`: slots of the head -/

/-- The number of `meta` elements that answer to a selector. -/
def slots (sel : Selector) (head : List MetaEl) : Nat :=
  (head.filter (matchesSelector sel)).length

/-- The `name` and `property` attributes of a `meta` element: what decides the
keys the element answers to. -/
def skeleton (el : MetaEl) : Option Str × Option Str := (el.name, el.property)

/-- The `name` and `property` attributes of the element that `ensureMeta`
creates for a selector. -/
def freshSkeleton (sel : Selector) : Option Str × Option Str :=
  skeleton (setAttrs [(sel.key, sel.value)] ⟨none, none, none⟩)

/-- A run of upserts on the head, in order. -/
def upsertAll (ws : List (Selector × Str)) (head : List MetaEl) : List MetaEl :=
  ws.foldl (fun h w => ensureField w.1 w.2 h) head

/-- The writes of a run of upserts that land on one element, in order. -/
def writeAll (ws : List (Selector × Str)) (el : MetaEl) : MetaEl :=
  ws.foldl (fun e w => setAttrs [(w.1.key, w.1.value), (.content, w.2)] e) el

/-! ## `post.js`: reading the title back -/

/-- ASCII whitespace in the sense of the HTML standard: tab, line feed, form
feed, carriage return and space. -/
def isAsciiWhitespace (c : Char) : Bool :=
  let n := c.toNat
  n == 9 || n == 10 || n == 12 || n == 13 || n == 32

/-- Replace every run of ASCII whitespace by one space; `inRun` records that the
previous character was ASCII whitespace. -/
def collapseAux : Bool → Str → Str
  | _, [] => []
  | inRun, c :: cs =>
    if isAsciiWhitespace c then
      if inRun then collapseAux true cs else ' ' :: collapseAux true cs
    else c :: collapseAux false cs

/-- The operation "strip and collapse ASCII whitespace" of the HTML standard. -/
def stripAndCollapse (s : Str) : Str :=
  (((collapseAux false s).dropWhile isAsciiWhitespace).reverse.dropWhile
    isAsciiWhitespace).reverse

/-- The getter of `document.title`: the text of the `title` element with ASCII
whitespace stripped and collapsed. -/
def documentTitle (pg : PostPage) : Str := stripAndCollapse pg.title

/-- Post `a2` with two spaces inside its title. -/
def postSpaced : Post := { postA2 with title := "Fire  walls".toList }

/-- A detail page whose head holds one `meta` element with the name
`description` and the content "old". -/
def pageWithDescription : PostPage :=
  { samplePostPage with head := [⟨some "description".toList, none, some "old".toList⟩] }

/-- A detail page whose head holds one `meta` element that carries both the name
`description` and the property `og:title`. -/
def pageAliased : PostPage :=
  { samplePostPage with
      head := [⟨some "description".toList, some "og:title".toList, some "old".toList⟩] }

/-- A detail page whose head holds one `meta` element that carries both the name
`description` and the property `og:description`. -/
def pageShared : PostPage :=
  { samplePostPage with
      head := [⟨some "description".toList, some "og:description".toList, some "old".toList⟩] }

/-- No element of the head answers to two keys of a run of upserts that get
different contents. -/
def sharedSlotsAgree (ws : List (Selector × Str)) (head : List MetaEl) : Bool :=
  head.all (fun el => ws.all (fun w1 => ws.all (fun w2 =>
    !matchesSelector w1.1 el || !matchesSelector w2.1 el || decide (w1.2 = w2.2))))

/-! ## Lemmas on the string primitives -/

theorem startsWith_eq_true_iff (s p : Str) : startsWith s p = true ↔ p <+: s := by
  induction p generalizing s with
  | nil => simp [startsWith]
  | cons a p ih =>
    cases s with
    | nil => simp [startsWith]
    | cons c cs =>
      simp only [startsWith, Bool.and_eq_true, beq_iff_eq, ih, List.cons_prefix_cons]
      constructor
      · rintro ⟨h1, h2⟩; exact ⟨h1.symm, h2⟩
      · rintro ⟨h1, h2⟩; exact ⟨h1.symm, h2⟩

theorem includes_eq_true_iff (s t : Str) : includes s t = true ↔ t <:+: s := by
  induction s with
  | nil =>
    simp only [includes, startsWith_eq_true_iff]
    simp [List.prefix_nil, List.infix_nil]
  | cons c cs ih =>
    simp only [includes, Bool.or_eq_true, startsWith_eq_true_iff, ih]
    rw [List.infix_cons_iff]

theorem isWhiteSpace_toLower (c : Char) : isWhiteSpace c.toLower = isWhiteSpace c := by
  by_cases h : c.toNat ≥ 65 ∧ c.toNat ≤ 90
  · have h1 : c.toLower = Char.ofNat (c.toNat + 32) := by
      unfold Char.toLower; simp only [h, and_self, if_true]
    rw [h1]
    obtain ⟨ha, hb⟩ := h
    unfold isWhiteSpace
    generalize c.toNat = n at ha hb
    interval_cases n <;> decide
  · have h1 : c.toLower = c := by
      unfold Char.toLower; simp only [h, if_false]
    rw [h1]

theorem asciiToLowerCase_dropWhile (s : Str) :
    (asciiToLowerCase s).dropWhile isWhiteSpace = asciiToLowerCase (s.dropWhile isWhiteSpace) := by
  induction s with
  | nil => rfl
  | cons c cs ih =>
    simp only [asciiToLowerCase, List.map_cons, List.dropWhile_cons, isWhiteSpace_toLower] at ih ⊢
    split
    · exact ih
    · rfl

/-- Lowercasing and trimming commute. -/
theorem trim_asciiToLowerCase (s : Str) : trim (asciiToLowerCase s) = asciiToLowerCase (trim s) := by
  unfold trim
  rw [asciiToLowerCase_dropWhile]
  generalize s.dropWhile isWhiteSpace = u
  have h : (asciiToLowerCase u).reverse = asciiToLowerCase u.reverse := by
    simp [asciiToLowerCase, List.map_reverse]
  rw [h, asciiToLowerCase_dropWhile]
  simp [asciiToLowerCase, List.map_reverse]

theorem asciiToLowerCase_eq_nil (s : Str) : asciiToLowerCase s = [] ↔ s = [] := by
  simp [asciiToLowerCase]

/-! ## Lemmas on the filter -/

theorem displayPosts_filteredPosts (posts : List Post) (pg : BlogPage) :
    (displayPosts posts pg).page.filteredPosts = pg.filteredPosts := by
  unfold displayPosts
  cases pg.postsContainer with
  | none => rfl
  | some grid =>
    cases h : pg.noPostsMessage <;> by_cases hl : (posts.length == 0) = true <;> simp [hl, h]

theorem displayPosts_allPosts (posts : List Post) (pg : BlogPage) :
    (displayPosts posts pg).page.allPosts = pg.allPosts := by
  unfold displayPosts
  cases pg.postsContainer with
  | none => rfl
  | some grid =>
    cases h : pg.noPostsMessage <;> by_cases hl : (posts.length == 0) = true <;> simp [hl, h]

/-- The category predicate, in words: some category of the post has the key. -/
theorem matchesCategory_iff (lower : Str → Str) (k : Option Str) (p : Post) :
    matchesCategory lower k p = true ↔
      ∃ c ∈ p.categories, some (categoryKey lower c) = k := by
  simp [matchesCategory, List.any_eq_true]

/-- The search predicate, in words: the term occurs in one of the four fields. -/
theorem matchesTerm_iff (lower : Str → Str) (t : Str) (p : Post) :
    matchesTerm lower t p = true ↔
      (t <:+: lower p.title ∨ t <:+: lower p.excerpt ∨
       (∃ c ∈ p.categories, t <:+: lower c) ∨
       (∃ tags, p.tags = some tags ∧ ∃ tag ∈ tags, t <:+: lower tag)) := by
  unfold matchesTerm
  cases h : p.tags with
  | none => simp [includes_eq_true_iff, List.any_eq_true, or_assoc]
  | some tags => simp [includes_eq_true_iff, List.any_eq_true, or_assoc]

/-- The list that `performSearch` stores in `filteredPosts`. -/
theorem performSearch_filteredPosts (lower : Str → Str) (s : Str) (pg : BlogPage) :
    (performSearch lower s pg).page.filteredPosts =
      (if trim (lower s) = [] then
        (if currentCategory pg ≠ some "all".toList then
          pg.allPosts.filter (matchesCategory lower (currentCategory pg)) else pg.allPosts)
       else
        (if currentCategory pg ≠ some "all".toList then
          pg.allPosts.filter (matchesCategory lower (currentCategory pg))
         else pg.allPosts).filter
          (matchesTerm lower (trim (lower s)))) := by
  unfold performSearch
  simp only [displayPosts_filteredPosts]

/-! ## Claims on the filter -/

/-- C1: whatever function `toLowerCase` is, with active category key `k` a post
is in the view computed by `performSearch` exactly when it is a post of the
index, the category predicate holds (`k` is "all", or some category of the
post, lowercased and with whitespace runs hyphenated, equals `k`) and the
search predicate holds (the search string, lowercased and trimmed, is empty or
occurs in the lowercased title, excerpt, a category, or a tag when tags are
present). -/
theorem performSearch_mem_iff (lower : Str → Str) (pg : BlogPage) (k s : Str) (p : Post)
    (hk : currentCategory pg = some k) :
    p ∈ (performSearch lower s pg).page.filteredPosts ↔
      p ∈ pg.allPosts ∧
      (k = "all".toList ∨
        ∃ c ∈ p.categories, replaceWhitespaceRuns (lower c) = k) ∧
      (trim (lower s) = [] ∨
        trim (lower s) <:+: lower p.title ∨
        trim (lower s) <:+: lower p.excerpt ∨
        (∃ c ∈ p.categories, trim (lower s) <:+: lower c) ∨
        (∃ tags, p.tags = some tags ∧ ∃ tag ∈ tags, trim (lower s) <:+: lower tag)) := by
  rw [performSearch_filteredPosts, hk]
  have hcat : matchesCategory lower (some k) p = true ↔
      ∃ c ∈ p.categories, replaceWhitespaceRuns (lower c) = k := by
    rw [matchesCategory_iff]
    simp [categoryKey]
  by_cases hall : k = "all".toList
  · subst hall
    by_cases ht : trim (lower s) = []
    · simp [ht]
    · simp only [ne_eq, not_true_eq_false, if_false, ht, List.mem_filter, matchesTerm_iff,
        true_or, true_and, false_or]
  · have hne : (some k : Option Str) ≠ some "all".toList := by
      intro h; exact hall (Option.some.inj h)
    by_cases ht : trim (lower s) = []
    · simp only [ht, if_true, hne, ne_eq, not_false_eq_true, List.mem_filter, hcat, hall,
        false_or, true_or, and_true]
    · simp only [ht, if_false, hne, ne_eq, not_false_eq_true, if_true, List.mem_filter, hcat,
        hall, false_or, matchesTerm_iff, and_assoc]

/-- C1 at the example index: category "web-security", empty term, post `a1`. -/
theorem performSearch_mem_iff_witness :
    currentCategory (samplePage [⟨true, some "web-security".toList⟩] none)
        = some "web-security".toList ∧
    (postA1 ∈ (performSearch asciiToLowerCase []
        (samplePage [⟨true, some "web-security".toList⟩] none)).page.filteredPosts ↔
      postA1 ∈ (samplePage [⟨true, some "web-security".toList⟩] none).allPosts ∧
      ("web-security".toList = "all".toList ∨
        ∃ c ∈ postA1.categories,
          replaceWhitespaceRuns (asciiToLowerCase c) = "web-security".toList) ∧
      (trim (asciiToLowerCase []) = [] ∨
        trim (asciiToLowerCase []) <:+: asciiToLowerCase postA1.title ∨
        trim (asciiToLowerCase []) <:+: asciiToLowerCase postA1.excerpt ∨
        (∃ c ∈ postA1.categories, trim (asciiToLowerCase []) <:+: asciiToLowerCase c) ∨
        (∃ tags, postA1.tags = some tags ∧
          ∃ tag ∈ tags, trim (asciiToLowerCase []) <:+: asciiToLowerCase tag))) :=
  ⟨by decide, performSearch_mem_iff asciiToLowerCase _ _ _ _ (by decide)⟩

/-- C2: whatever function `toLowerCase` is, when the trimmed search string is
non-empty, every post left in the view by `performSearch` contains the term
(the search string lowercased and trimmed) in its lowercased title, its
lowercased excerpt, one of its lowercased categories or one of its lowercased
tags. -/
theorem performSearch_contains_term (lower : Str → Str) (pg : BlogPage) (s : Str) (p : Post)
    (_hs : trim s ≠ [])
    (hp : p ∈ (performSearch lower s pg).page.filteredPosts) :
    trim (lower s) <:+: lower p.title ∨
    trim (lower s) <:+: lower p.excerpt ∨
    (∃ c ∈ p.categories, trim (lower s) <:+: lower c) ∨
    (∃ tags, p.tags = some tags ∧ ∃ tag ∈ tags, trim (lower s) <:+: lower tag) := by
  rw [performSearch_filteredPosts] at hp
  by_cases ht : trim (lower s) = []
  · left
    rw [ht]
    exact List.nil_infix
  · rw [if_neg ht] at hp
    exact (matchesTerm_iff _ _ _).1 (List.mem_filter.1 hp).2

/-- C2 at the example index: category "all", term " Fire", post `a2`. -/
theorem performSearch_contains_term_witness :
    trim " Fire".toList ≠ [] ∧
    postA2 ∈ (performSearch asciiToLowerCase " Fire".toList
      (samplePage [⟨true, some "all".toList⟩] none)).page.filteredPosts ∧
    trim (asciiToLowerCase " Fire".toList) = "fire".toList ∧
    (trim (asciiToLowerCase " Fire".toList) <:+: asciiToLowerCase postA2.title ∨
     trim (asciiToLowerCase " Fire".toList) <:+: asciiToLowerCase postA2.excerpt ∨
     (∃ c ∈ postA2.categories,
       trim (asciiToLowerCase " Fire".toList) <:+: asciiToLowerCase c) ∨
     (∃ tags, postA2.tags = some tags ∧
       ∃ tag ∈ tags, trim (asciiToLowerCase " Fire".toList) <:+: asciiToLowerCase tag)) :=
  ⟨by decide, by decide, by decide,
    performSearch_contains_term asciiToLowerCase (samplePage [⟨true, some "all".toList⟩] none)
      " Fire".toList postA2 (by decide) (by decide)⟩

/-! ## Category keys -/

theorem toLower_toLower (c : Char) : c.toLower.toLower = c.toLower := by
  by_cases h : c.toNat ≥ 65 ∧ c.toNat ≤ 90
  · have h1 : c.toLower = Char.ofNat (c.toNat + 32) := by
      unfold Char.toLower; simp only [h, and_self, if_true]
    rw [h1]
    obtain ⟨ha, hb⟩ := h
    generalize c.toNat = n at ha hb
    interval_cases n <;> decide
  · have h1 : c.toLower = c := by
      unfold Char.toLower; simp only [h, if_false]
    rw [h1, h1]

theorem asciiToLowerCase_idem (s : Str) : asciiToLowerCase (asciiToLowerCase s) = asciiToLowerCase s := by
  simp [asciiToLowerCase, Function.comp_def, toLower_toLower]

theorem asciiToLowerCase_replaceWsAux (b : Bool) (s : Str) :
    asciiToLowerCase (replaceWsAux b s) = replaceWsAux b (asciiToLowerCase s) := by
  induction s generalizing b with
  | nil => rfl
  | cons c cs ih =>
    have hd : asciiToLowerCase (c :: cs) = c.toLower :: asciiToLowerCase cs := rfl
    rw [hd]
    simp only [replaceWsAux, isWhiteSpace_toLower]
    by_cases hw : isWhiteSpace c = true
    · cases b
      · simp only [hw, if_true, Bool.false_eq_true, if_false]
        rw [← ih true]; rfl
      · simp only [hw, if_true]
        exact ih true
    · simp only [hw, if_false, Bool.false_eq_true]
      rw [← ih false]; rfl

/-- The output of the whitespace replacement holds no whitespace character. -/
theorem replaceWsAux_no_ws (b : Bool) (s : Str) :
    ∀ c ∈ replaceWsAux b s, isWhiteSpace c = false := by
  induction s generalizing b with
  | nil => intro c hc; simp [replaceWsAux] at hc
  | cons a cs ih =>
    intro c hc
    simp only [replaceWsAux] at hc
    by_cases hw : isWhiteSpace a = true
    · cases b
      · simp only [hw, if_true, Bool.false_eq_true, if_false, List.mem_cons] at hc
        rcases hc with rfl | hc
        · decide
        · exact ih true c hc
      · simp only [hw, if_true] at hc
        exact ih true c hc
    · simp only [hw, if_false, Bool.false_eq_true, List.mem_cons] at hc
      rcases hc with rfl | hc
      · simpa using hw
      · exact ih false c hc

/-- A string without whitespace is left alone by the replacement. -/
theorem replaceWsAux_of_no_ws (s : Str) (h : ∀ c ∈ s, isWhiteSpace c = false) :
    replaceWsAux false s = s := by
  induction s with
  | nil => rfl
  | cons a cs ih =>
    have ha : isWhiteSpace a = false := h a (List.mem_cons_self _ _)
    simp only [replaceWsAux, ha, Bool.false_eq_true, if_false]
    rw [ih (fun c hc => h c (List.mem_cons_of_mem _ hc))]

/-- With ASCII lowercasing, generating a category key from a category key
returns it unchanged. -/
theorem categoryKey_ascii_idem (c : Str) :
    categoryKey asciiToLowerCase (categoryKey asciiToLowerCase c)
      = categoryKey asciiToLowerCase c := by
  unfold categoryKey replaceWhitespaceRuns
  rw [asciiToLowerCase_replaceWsAux, asciiToLowerCase_idem]
  exact replaceWsAux_of_no_ws _ (replaceWsAux_no_ws false _)

/-- A category key holds no whitespace character. -/
theorem categoryKey_no_ws (lower : Str → Str) (c : Str) :
    ∀ x ∈ categoryKey lower c, isWhiteSpace x = false :=
  replaceWsAux_no_ws false (lower c)

/-- When lowercasing leaves a generated key as it is, generating a key from the
key returns it unchanged. -/
theorem categoryKey_idem_of_fixed (lower : Str → Str) (c : Str)
    (h : lower (categoryKey lower c) = categoryKey lower c) :
    categoryKey lower (categoryKey lower c) = categoryKey lower c := by
  have h2 : categoryKey lower (categoryKey lower c)
      = replaceWhitespaceRuns (lower (categoryKey lower c)) := rfl
  rw [h2, h]
  exact replaceWsAux_of_no_ws _ (categoryKey_no_ws lower c)

/-- The list that `filterPostsByCategory` stores in `filteredPosts`: with a
non-blank search box the list is the one `performSearch` computes. -/
theorem filterPostsByCategory_filteredPosts (lower : Str → Str) (c : Str) (pg : BlogPage) :
    (filterPostsByCategory lower c pg).page.filteredPosts =
      (match pg.searchInput with
       | some value =>
         if truthy (trim value) then (performSearch lower value pg).page.filteredPosts
         else (if c = "all".toList then pg.allPosts
               else pg.allPosts.filter (matchesCategory lower (some c)))
       | none => (if c = "all".toList then pg.allPosts
               else pg.allPosts.filter (matchesCategory lower (some c)))) := by
  unfold filterPostsByCategory
  cases hsi : pg.searchInput with
  | none => simp only [hsi, displayPosts_filteredPosts]
  | some value =>
    by_cases ht : truthy (trim value) = true
    · simp only [hsi, ht, if_true, performSearch_filteredPosts]
      rfl
    · simp only [hsi, ht, if_false, displayPosts_filteredPosts, Bool.false_eq_true]

/-- A post passes the category filter for `c` only when `c` holds no whitespace
character: the keys of the posts never hold one. -/
theorem matchesCategory_no_ws (lower : Str → Str) (c : Str) (p : Post)
    (h : matchesCategory lower (some c) p = true) : ∀ x ∈ c, isWhiteSpace x = false := by
  obtain ⟨cat, _, hcat⟩ := (matchesCategory_iff _ _ _).1 h
  have hc : categoryKey lower cat = c := Option.some.inj hcat
  rw [← hc]
  exact categoryKey_no_ws lower cat

/-- C3, refuted as stated: on the example index, filtering by "Web Security"
returns no post, while filtering by its normalized form "web-security" returns
post `a1`, through `filterPostsByCategory` and through `performSearch` alike.
All strings are ASCII, where `toLowerCase` is ASCII lowercasing. -/
theorem filter_raw_category_counterexample :
    categoryKey asciiToLowerCase "Web Security".toList = "web-security".toList ∧
    (filterPostsByCategory asciiToLowerCase "Web Security".toList
      (samplePage [⟨true, some "Web Security".toList⟩] none)).page.filteredPosts = [] ∧
    (filterPostsByCategory asciiToLowerCase "web-security".toList
      (samplePage [⟨true, some "web-security".toList⟩] none)).page.filteredPosts = [postA1] ∧
    (performSearch asciiToLowerCase []
      (samplePage [⟨true, some "Web Security".toList⟩] none)).page.filteredPosts = [] ∧
    (performSearch asciiToLowerCase []
      (samplePage [⟨true, some "web-security".toList⟩] none)).page.filteredPosts = [postA1] := by
  decide

/-- C3, amended: only the post's side is normalized. Whatever function
`toLowerCase` is, with `c` other than "all" on the active button, every post
that `performSearch` or `filterPostsByCategory c` leaves in the view has a
category whose key (lowercased, whitespace runs hyphenated) equals `c` as
given, and when `c` holds a whitespace character both leave the view empty. -/
theorem filter_category_exact (lower : Str → Str) (pg : BlogPage) (c s : Str)
    (hall : c ≠ "all".toList) (hact : currentCategory pg = some c) :
    (∀ p ∈ (performSearch lower s pg).page.filteredPosts,
        ∃ cat ∈ p.categories, replaceWhitespaceRuns (lower cat) = c) ∧
    (∀ p ∈ (filterPostsByCategory lower c pg).page.filteredPosts,
        ∃ cat ∈ p.categories, replaceWhitespaceRuns (lower cat) = c) ∧
    ((∃ x ∈ c, isWhiteSpace x = true) →
      (performSearch lower s pg).page.filteredPosts = [] ∧
      (filterPostsByCategory lower c pg).page.filteredPosts = []) := by
  have hne : (some c : Option Str) ≠ some "all".toList := fun h => hall (Option.some.inj h)
  have key : ∀ t p, p ∈ (performSearch lower t pg).page.filteredPosts →
      matchesCategory lower (some c) p = true := by
    intro t p hp
    rw [performSearch_filteredPosts, hact, if_pos hne] at hp
    split at hp
    · exact (List.mem_filter.1 hp).2
    · exact (List.mem_filter.1 (List.mem_filter.1 hp).1).2
  have key2 : ∀ p, p ∈ (filterPostsByCategory lower c pg).page.filteredPosts →
      matchesCategory lower (some c) p = true := by
    intro p hp
    rw [filterPostsByCategory_filteredPosts] at hp
    cases hsi : pg.searchInput with
    | none =>
      simp only [hsi, if_neg hall] at hp
      exact (List.mem_filter.1 hp).2
    | some value =>
      simp only [hsi] at hp
      split at hp
      · exact key value p hp
      · exact (List.mem_filter.1 hp).2
  have ex : ∀ p, matchesCategory lower (some c) p = true →
      ∃ cat ∈ p.categories, replaceWhitespaceRuns (lower cat) = c := by
    intro p h
    obtain ⟨cat, hm, hcat⟩ := (matchesCategory_iff _ _ _).1 h
    exact ⟨cat, hm, Option.some.inj hcat⟩
  refine ⟨fun p hp => ex p (key s p hp), fun p hp => ex p (key2 p hp), ?_⟩
  rintro ⟨x, hx, hws⟩
  constructor
  · apply List.eq_nil_iff_forall_not_mem.2
    intro p hp
    have := matchesCategory_no_ws lower c p (key s p hp) x hx
    rw [hws] at this
    cases this
  · apply List.eq_nil_iff_forall_not_mem.2
    intro p hp
    have := matchesCategory_no_ws lower c p (key2 p hp) x hx
    rw [hws] at this
    cases this

/-- C3 amended, at the example index: with "web-security" on the active button
the term "sql" leaves post `a1`, whose label "Web Security" has that key; with
"Web Security" on the active button the view is empty. -/
theorem filter_category_exact_witness :
    "web-security".toList ≠ "all".toList ∧
    currentCategory (samplePage [⟨true, some "web-security".toList⟩] none)
      = some "web-security".toList ∧
    (performSearch asciiToLowerCase "sql".toList
      (samplePage [⟨true, some "web-security".toList⟩] none)).page.filteredPosts = [postA1] ∧
    (∀ p ∈ (performSearch asciiToLowerCase "sql".toList
        (samplePage [⟨true, some "web-security".toList⟩] none)).page.filteredPosts,
      ∃ cat ∈ p.categories,
        replaceWhitespaceRuns (asciiToLowerCase cat) = "web-security".toList) ∧
    (∃ x ∈ "Web Security".toList, isWhiteSpace x = true) ∧
    (performSearch asciiToLowerCase "sql".toList
        (samplePage [⟨true, some "Web Security".toList⟩] none)).page.filteredPosts = [] ∧
    (filterPostsByCategory asciiToLowerCase "Web Security".toList
        (samplePage [⟨true, some "Web Security".toList⟩] none)).page.filteredPosts = [] :=
  ⟨by decide, by decide, by decide,
    (filter_category_exact asciiToLowerCase
      (samplePage [⟨true, some "web-security".toList⟩] none)
      "web-security".toList "sql".toList (by decide) (by decide)).1,
    by decide,
    (filter_category_exact asciiToLowerCase
      (samplePage [⟨true, some "Web Security".toList⟩] none)
      "Web Security".toList "sql".toList (by decide) (by decide)).2.2 (by decide)⟩

/-- C4, the code at the failing input: with "all" on the active button and "i"
in the search box, `filterPostsByCategory("web-security")` leaves both posts in
the view, although only `a1` matches category "web-security" and the term.
All strings are ASCII, where `toLowerCase` is ASCII lowercasing. -/
theorem filterPostsByCategory_ignores_argument :
    (filterPostsByCategory asciiToLowerCase "web-security".toList
      (samplePage [⟨true, some "all".toList⟩, ⟨false, some "web-security".toList⟩]
        (some "i".toList))).page.filteredPosts = [postA1, postA2] ∧
    [postA1, postA2].filter
      (fun p => matchesCategory asciiToLowerCase (some "web-security".toList) p &&
        matchesTerm asciiToLowerCase "i".toList p)
      = [postA1] := by
  decide

/-! ## Asset paths -/

theorem lastIndexOfAux_not_mem (c : Char) (f : Str) (i : Nat) (acc : Int) (h : c ∉ f) :
    lastIndexOfAux c f i acc = acc := by
  induction f generalizing i acc with
  | nil => rfl
  | cons x xs ih =>
    have hx : (x == c) = false := by
      simp only [beq_eq_false_iff_ne, ne_eq]
      intro e; exact h (e ▸ List.mem_cons_self _ _)
    simp only [lastIndexOfAux, hx, Bool.false_eq_true, if_false]
    exact ih _ _ (fun hm => h (List.mem_cons_of_mem _ hm))

theorem lastIndexOfAux_append (c : Char) (d f : Str) (i : Nat) (acc : Int) (h : c ∉ f) :
    lastIndexOfAux c (d ++ c :: f) i acc = ((i + d.length : Nat) : Int) := by
  induction d generalizing i acc with
  | nil =>
    simp only [List.nil_append, lastIndexOfAux, beq_self_eq_true, if_true, List.length_nil,
      Nat.add_zero]
    exact lastIndexOfAux_not_mem c f _ _ h
  | cons x xs ih =>
    show lastIndexOfAux c (xs ++ c :: f) (i + 1) _ = _
    rw [ih, List.length_cons]
    congr 1
    omega

/-- The base directory of a path that holds no slash is the empty string. -/
theorem baseDirOf_no_slash (path : Str) (h : '/' ∉ path) : baseDirOf path = [] := by
  unfold baseDirOf lastIndexOf substring
  rw [lastIndexOfAux_not_mem _ _ _ _ h]
  simp

/-- The base directory of `d/f`, where `f` holds no slash, is `d`. -/
theorem baseDirOf_append (d f : Str) (h : '/' ∉ f) : baseDirOf (d ++ '/' :: f) = d := by
  unfold baseDirOf lastIndexOf substring
  rw [lastIndexOfAux_append _ _ _ _ _ h]
  have h1 : (min (max (0 : Int) 0) ((d ++ '/' :: f).length : Int)).toNat = 0 := by simp
  have h2 : (min (max (((0 + d.length : Nat)) : Int) 0) ((d ++ '/' :: f).length : Int)).toNat
      = d.length := by
    simp only [List.length_append, List.length_cons, Nat.zero_add]
    omega
  simp only [h1, h2, Nat.zero_min, Nat.zero_max, Nat.sub_zero, List.drop_zero]
  simp

/-- A lowercased string begins with `lit` exactly when the string splits into a
head that lowercases to `lit` and a rest. -/
theorem startsWith_asciiToLowerCase_iff (s lit : Str) :
    startsWith (asciiToLowerCase s) lit = true ↔
      ∃ pre rest, s = pre ++ rest ∧ asciiToLowerCase pre = lit := by
  rw [startsWith_eq_true_iff]
  constructor
  · rintro ⟨t, ht⟩
    refine ⟨s.take lit.length, s.drop lit.length, (List.take_append_drop _ _).symm, ?_⟩
    have h1 : (asciiToLowerCase s).take lit.length = lit := by
      rw [← ht]; simp
    rw [← h1]
    simp [asciiToLowerCase, List.map_take]
  · rintro ⟨pre, rest, rfl, rfl⟩
    exact ⟨asciiToLowerCase rest, by simp [asciiToLowerCase]⟩

/-- The guard of the rewrite, in words: the src begins with `http://` or
`https://` in any letter case, or with `//`, or with `/`. -/
theorem isSkipped_iff (s : Str) :
    isSkipped s = true ↔
      ((∃ pre rest, s = pre ++ rest ∧
          (asciiToLowerCase pre = "http://".toList ∨ asciiToLowerCase pre = "https://".toList)) ∨
        "//".toList <+: s ∨ "/".toList <+: s) := by
  have h1 := startsWith_asciiToLowerCase_iff s "http://".toList
  have h2 := startsWith_asciiToLowerCase_iff s "https://".toList
  have h3 := startsWith_eq_true_iff s "//".toList
  have h4 := startsWith_eq_true_iff s "/".toList
  unfold isSkipped isProtocolUrl
  rw [Bool.or_eq_true, Bool.or_eq_true, Bool.or_eq_true, h1, h2, h3, h4]
  constructor
  · rintro (((h | ⟨pre, rest, e1, e2⟩) | ⟨pre, rest, e1, e2⟩) | h)
    · exact Or.inr (Or.inl h)
    · exact Or.inl ⟨pre, rest, e1, Or.inl e2⟩
    · exact Or.inl ⟨pre, rest, e1, Or.inr e2⟩
    · exact Or.inr (Or.inr h)
  · rintro (⟨pre, rest, e1, e2 | e2⟩ | h | h)
    · exact Or.inl (Or.inl (Or.inr ⟨pre, rest, e1, e2⟩))
    · exact Or.inl (Or.inr ⟨pre, rest, e1, e2⟩)
    · exact Or.inl (Or.inl (Or.inl h))
    · exact Or.inr h

theorem stripDotSlash_cases (s : Str) :
    (∃ r, s = '.' :: '/' :: r ∧ stripDotSlash s = r) ∨
    (¬ "./".toList <+: s ∧ stripDotSlash s = s) := by
  unfold stripDotSlash
  split
  · rename_i rest
    exact Or.inl ⟨rest, rfl, rfl⟩
  · rename_i hne
    refine Or.inr ⟨?_, rfl⟩
    rintro ⟨t, ht⟩
    exact hne t ht.symm

theorem rewriteSrc_of_skipped (d : Str) (a : Option Str)
    (h : isSkipped (a.getD []) = true) : rewriteSrc d a = a := by
  simp [rewriteSrc, h]

theorem rewriteSrc_of_not_skipped (d : Str) (a : Option Str)
    (h : ¬ isSkipped (a.getD []) = true) :
    rewriteSrc d a = some (d ++ '/' :: stripDotSlash (a.getD [])) := by
  simp [rewriteSrc, h]

/-- C5, refuted as stated: under "posts/2024" the src "diagram.png" becomes
"posts/2024/diagram.png", and rewriting that again gives
"posts/2024/posts/2024/diagram.png". -/
theorem rewriteSrc_twice_counterexample :
    rewriteSrc "posts/2024".toList (some "diagram.png".toList)
      = some "posts/2024/diagram.png".toList ∧
    rewriteSrc "posts/2024".toList (some "posts/2024/diagram.png".toList)
      = some "posts/2024/posts/2024/diagram.png".toList ∧
    rewriteSrc "posts/2024".toList
        (rewriteSrc "posts/2024".toList (some "diagram.png".toList))
      ≠ rewriteSrc "posts/2024".toList (some "diagram.png".toList) := by
  decide

/-- C5, amended: rewriting twice equals rewriting once exactly when the
once-rewritten src is itself skipped by the rule (it begins with `http://`,
`https://`, `//` or `/`) or the directory is "."; this covers every src that
is skipped the first time and every src under an empty directory or one that
begins with "/". -/
theorem rewriteSrc_twice_iff (d : Str) (a : Option Str) :
    (rewriteSrc d (rewriteSrc d a) = rewriteSrc d a ↔
      (isSkipped ((rewriteSrc d a).getD []) = true ∨ d = ['.'])) ∧
    (isSkipped (a.getD []) = true → rewriteSrc d (rewriteSrc d a) = rewriteSrc d a) ∧
    ((d = [] ∨ "/".toList <+: d) → rewriteSrc d (rewriteSrc d a) = rewriteSrc d a) := by
  have main : rewriteSrc d (rewriteSrc d a) = rewriteSrc d a ↔
      (isSkipped ((rewriteSrc d a).getD []) = true ∨ d = ['.']) := by
    by_cases h2 : isSkipped ((rewriteSrc d a).getD []) = true
    · simp only [h2, true_or, iff_true]
      exact rewriteSrc_of_skipped d _ h2
    · have h1 : ¬ isSkipped (a.getD []) = true := by
        intro h1
        rw [rewriteSrc_of_skipped d a h1] at h2
        exact h2 h1
      have hr := rewriteSrc_of_not_skipped d a h1
      rw [or_iff_right h2, rewriteSrc_of_not_skipped d _ h2, hr]
      simp only [Option.getD_some, Option.some.injEq, List.append_cancel_left_eq,
        List.cons.injEq, true_and]
      generalize stripDotSlash (a.getD []) = n
      constructor
      · intro he
        rcases stripDotSlash_cases (d ++ '/' :: n) with ⟨r, hx, hsr⟩ | ⟨_, hsx⟩
        · rw [hsr] at he
          subst he
          have : d ++ '/' :: r = ['.'] ++ '/' :: r := hx
          exact List.append_cancel_right this
        · rw [hsx] at he
          have := congrArg List.length he
          simp only [List.length_append, List.length_cons] at this
          omega
      · rintro rfl
        rfl
  refine ⟨main, fun h1 => ?_, fun hd => ?_⟩
  · apply main.2
    left
    rw [rewriteSrc_of_skipped d a h1]
    exact h1
  · by_cases h1 : isSkipped (a.getD []) = true
    · apply main.2
      left
      rw [rewriteSrc_of_skipped d a h1]
      exact h1
    · apply main.2
      left
      rw [rewriteSrc_of_not_skipped d a h1]
      apply (isSkipped_iff _).2
      right; right
      rcases hd with rfl | ⟨t, rfl⟩
      · exact ⟨_, rfl⟩
      · exact ⟨t ++ '/' :: stripDotSlash (a.getD []), by simp⟩

/-- C6, the code at the failing inputs: a `data:`, an `ftp:` and a `blob:` src
are not skipped; each gets the directory prefixed. -/
theorem rewriteSrc_other_schemes :
    rewriteSrc "posts/2024".toList (some "data:image/png;base64,AAAA".toList)
      = some "posts/2024/data:image/png;base64,AAAA".toList ∧
    rewriteSrc "posts/2024".toList (some "ftp://host/x.png".toList)
      = some "posts/2024/ftp://host/x.png".toList ∧
    rewriteSrc "posts/2024".toList (some "blob:https://ex.com/1f0c".toList)
      = some "posts/2024/blob:https://ex.com/1f0c".toList := by
  decide

/-- C7: a src that begins with `http://` or `https://` (in any letter case),
with `//` or with `/` is left exactly as it is by the rewrite step, under every
directory. -/
theorem rewriteSrc_skips (d s : Str)
    (h : (∃ pre rest, s = pre ++ rest ∧
            (asciiToLowerCase pre = "http://".toList ∨ asciiToLowerCase pre = "https://".toList)) ∨
          "//".toList <+: s ∨ "/".toList <+: s) :
    rewriteSrc d (some s) = some s ∧ rewriteNode d (.img (some s)) = .img (some s) := by
  have hs : rewriteSrc d (some s) = some s :=
    rewriteSrc_of_skipped d (some s) ((isSkipped_iff s).2 h)
  exact ⟨hs, by simp only [rewriteNode, hs]⟩

/-- C7 at the specification's example: "https://ex.com/x.png" under "posts/2024". -/
theorem rewriteSrc_skips_witness :
    rewriteSrc "posts/2024".toList (some "https://ex.com/x.png".toList)
        = some "https://ex.com/x.png".toList ∧
    rewriteNode "posts/2024".toList (.img (some "https://ex.com/x.png".toList))
        = .img (some "https://ex.com/x.png".toList) :=
  rewriteSrc_skips "posts/2024".toList "https://ex.com/x.png".toList
    (Or.inl ⟨"https://".toList, "ex.com/x.png".toList, by decide, Or.inr (by decide)⟩)

/-- C8: for a body path `d/f` (`f` without slash, so `d` is the path up to its
last slash) and a src that does not begin with `http://` or `https://` (the
scheme in any letter case), nor with `//` or `/`, the rewritten src is `d`, a
slash, and the src with one leading `./` removed if present. -/
theorem rewriteSrc_relative (d f s : Str) (hf : '/' ∉ f)
    (hs : ¬ ((∃ pre rest, s = pre ++ rest ∧
            (asciiToLowerCase pre = "http://".toList ∨ asciiToLowerCase pre = "https://".toList)) ∨
          "//".toList <+: s ∨ "/".toList <+: s)) :
    (∀ r, s = "./".toList ++ r →
      rewriteSrc (baseDirOf (d ++ '/' :: f)) (some s) = some (d ++ '/' :: r)) ∧
    (¬ "./".toList <+: s →
      rewriteSrc (baseDirOf (d ++ '/' :: f)) (some s) = some (d ++ '/' :: s)) := by
  have hns : ¬ isSkipped ((some s : Option Str).getD []) = true :=
    fun h => hs ((isSkipped_iff s).1 h)
  rw [baseDirOf_append d f hf, rewriteSrc_of_not_skipped d (some s) hns]
  simp only [Option.getD_some]
  constructor
  · rintro r rfl
    rfl
  · intro hp
    rcases stripDotSlash_cases s with ⟨r, hx, _⟩ | ⟨_, hsx⟩
    · exact absurd ⟨r, hx.symm⟩ hp
    · rw [hsx]

/-- C8 at the specification's example: "./diagram.png" under
"posts/2024/post.md" becomes "posts/2024/diagram.png". -/
theorem rewriteSrc_relative_witness :
    '/' ∉ "post.md".toList ∧
    rewriteSrc (baseDirOf ("posts/2024".toList ++ '/' :: "post.md".toList))
        (some "./diagram.png".toList)
      = some ("posts/2024".toList ++ '/' :: "diagram.png".toList) :=
  ⟨by decide,
    (rewriteSrc_relative "posts/2024".toList "post.md".toList "./diagram.png".toList
      (by decide)
      (by
        rw [← isSkipped_iff]
        decide)).1 "diagram.png".toList rfl⟩

/-! ## Rendering the body -/

/-- When the fetch is rejected and the content element exists, the page ends in
the content-load error state. -/
theorem renderMarkdownContent_rejected (marked : Str → List HtmlNode) (post : Post)
    (pg : PostPage) (c : Content) :
    renderMarkdownContent marked (fun _ => .rejected) post { pg with postContent := some c } =
      ⟨{ pg with postContent := some (.errorMessage "Unable to load post content".toList) },
        false⟩ := by
  simp [renderMarkdownContent, showError]

/-- When the fetch resolves, whatever the HTTP status, the response body is
converted and shown as the post content. -/
theorem renderMarkdownContent_resolved (marked : Str → List HtmlNode) (post : Post)
    (pg : PostPage) (c : Content) (status : Nat) (body : Str) :
    renderMarkdownContent marked (fun _ => .response status body) post
        { pg with postContent := some c } =
      ⟨{ pg with postContent := some (.rendered
          ((marked body).map (rewriteNode (baseDirOf (contentPathOf post))))) }, false⟩ := by
  simp [renderMarkdownContent]

/-- C9, the code at the failing input: the body resource is missing and the
fetch resolves with status 404 and the body "Not Found"; the page does not end
in the error state, the body of the 404 response is rendered as the post. -/
theorem renderMarkdownContent_http_404 :
    (renderMarkdownContent (fun md => [HtmlNode.other md])
        (fun _ => .response 404 "Not Found".toList) postWithCover samplePostPage).page.postContent
      = some (.rendered [.other "Not Found".toList]) ∧
    (renderMarkdownContent (fun md => [HtmlNode.other md])
        (fun _ => .response 404 "Not Found".toList) postWithCover samplePostPage).page.postContent
      ≠ some (.errorMessage "Unable to load post content".toList) := by
  decide

/-! ## Metadata -/

theorem injectDynamicSeo_head (post : Post) (pg : PostPage) :
    (injectDynamicSeo post pg).head =
      (seoWrites post pg.href).foldl (fun h w => ensureField w.1 w.2 h) pg.head := by
  unfold injectDynamicSeo seoWrites ensureImage
  cases post.image with
  | none => simp [List.foldl_append, ensureNamed, ensureProperty, ensureField]
  | some image =>
    by_cases ht : truthy image = true
    · simp [ht, List.foldl_append, ensureNamed, ensureProperty, ensureField]
    · simp [ht, List.foldl_append, ensureNamed, ensureProperty, ensureField]

theorem injectDynamicSeo_title (post : Post) (pg : PostPage) :
    (injectDynamicSeo post pg).title = seoTitleOf post := rfl

theorem injectDynamicSeo_href (post : Post) (pg : PostPage) :
    (injectDynamicSeo post pg).href = pg.href := rfl

theorem matchesSelector_setAttrs (sel : Selector) (v : Str) (el : MetaEl)
    (hk : sel.key ≠ .content) :
    matchesSelector sel (setAttrs [(sel.key, sel.value), (.content, v)] el) = true := by
  obtain ⟨k, x⟩ := sel
  cases k with
  | name => simp [matchesSelector, setAttrs, MetaEl.set, MetaEl.get]
  | property => simp [matchesSelector, setAttrs, MetaEl.set, MetaEl.get]
  | content => exact absurd rfl hk

theorem content_setAttrs (sel : Selector) (v : Str) (el : MetaEl) :
    (setAttrs [(sel.key, sel.value), (.content, v)] el).content = some v := by
  obtain ⟨k, x⟩ := sel
  cases k <;> simp [setAttrs, MetaEl.set]

theorem find_modifyFirst_same (p : MetaEl → Bool) (f : MetaEl → MetaEl)
    (hf : ∀ el, p el = true → p (f el) = true) (l : List MetaEl) :
    (modifyFirst p f l).find? p = (l.find? p).map f := by
  induction l with
  | nil => rfl
  | cons el rest ih =>
    by_cases hp : p el = true
    · simp [modifyFirst, hp, List.find?_cons, hf el hp]
    · simp [modifyFirst, hp, List.find?_cons, ih]

theorem find_modifyFirst_other (p q : MetaEl → Bool) (f : MetaEl → MetaEl)
    (l : List MetaEl)
    (h : ∀ el ∈ l, p el = true → q el = false ∧ q (f el) = false) :
    (modifyFirst p f l).find? q = l.find? q := by
  induction l with
  | nil => rfl
  | cons el rest ih =>
    have ih1 := ih (fun e he => h e (List.mem_cons_of_mem _ he))
    by_cases hp : p el = true
    · obtain ⟨h1, h2⟩ := h el (List.mem_cons_self _ _) hp
      simp [modifyFirst, hp, List.find?_cons, h1, h2]
    · simp only [modifyFirst, hp, Bool.false_eq_true, if_false, List.find?_cons, ih1]

/-- After an upsert, the field holds the content written. -/
theorem metaContent_ensureField_same (sel : Selector) (v : Str) (head : List MetaEl)
    (hk : sel.key ≠ .content) :
    metaContent sel (ensureField sel v head) = some v := by
  unfold metaContent ensureField ensureMeta
  by_cases ha : head.any (matchesSelector sel) = true
  · rw [if_pos ha, find_modifyFirst_same _ _ (fun el _ => matchesSelector_setAttrs sel v el hk)]
    obtain ⟨el, hel, hm⟩ := List.any_eq_true.1 ha
    cases hfind : head.find? (matchesSelector sel) with
    | none =>
      have := List.find?_eq_none.1 hfind el hel
      exact absurd hm this
    | some e => simp [content_setAttrs]
  · rw [if_neg ha, List.find?_append]
    have hnone : head.find? (matchesSelector sel) = none := by
      apply List.find?_eq_none.2
      intro el hel hm
      exact ha (List.any_eq_true.2 ⟨el, hel, hm⟩)
    rw [hnone]
    simp [List.find?_cons, matchesSelector_setAttrs sel v _ hk, content_setAttrs]

theorem matchesSelector_other (sel sel2 : Selector) (v : Str) (el : MetaEl)
    (hk : sel.key ≠ .content) (hk2 : sel2.key ≠ .content) (hne : sel2 ≠ sel)
    (hsep : el.name = none ∨ el.property = none)
    (hm : matchesSelector sel el = true) :
    matchesSelector sel2 el = false ∧
    matchesSelector sel2 (setAttrs [(sel.key, sel.value), (.content, v)] el) = false := by
  obtain ⟨k, x⟩ := sel
  obtain ⟨k2, x2⟩ := sel2
  obtain ⟨n, pr, c⟩ := el
  have hx : k2 = k → x2 ≠ x := by
    intro hk hx; exact hne (by rw [hk, hx])
  cases k <;> cases k2 <;>
    simp_all [matchesSelector, setAttrs, MetaEl.set, MetaEl.get] <;>
    (intro h; exact hx h.symm)

theorem matchesSelector_fresh (sel sel2 : Selector) (v : Str)
    (hk : sel.key ≠ .content) (hk2 : sel2.key ≠ .content) (hne : sel2 ≠ sel) :
    matchesSelector sel2 (setAttrs [(sel.key, sel.value), (.content, v)] ⟨none, none, none⟩)
      = false := by
  obtain ⟨k, x⟩ := sel
  obtain ⟨k2, x2⟩ := sel2
  have hx : k2 = k → x2 ≠ x := by
    intro hk hx; exact hne (by rw [hk, hx])
  cases k <;> cases k2 <;>
    simp_all [matchesSelector, setAttrs, MetaEl.set, MetaEl.get] <;>
    (intro h; exact hx h.symm)

theorem separateKeys_iff (head : List MetaEl) :
    separateKeys head = true ↔ ∀ el ∈ head, el.name = none ∨ el.property = none := by
  simp [separateKeys, List.all_eq_true, Option.isNone_iff_eq_none]

/-- An upsert leaves every other field as it was, in a head where no element
answers to two keys. -/
theorem metaContent_ensureField_other (sel sel2 : Selector) (v : Str) (head : List MetaEl)
    (hk : sel.key ≠ .content) (hk2 : sel2.key ≠ .content) (hne : sel2 ≠ sel)
    (hsep : separateKeys head = true) :
    metaContent sel2 (ensureField sel v head) = metaContent sel2 head := by
  have hs := (separateKeys_iff head).1 hsep
  unfold metaContent ensureField ensureMeta
  by_cases ha : head.any (matchesSelector sel) = true
  · rw [if_pos ha, find_modifyFirst_other]
    intro el hel hm
    exact matchesSelector_other sel sel2 v el hk hk2 hne (hs el hel) hm
  · rw [if_neg ha, List.find?_append]
    cases head.find? (matchesSelector sel2) with
    | some e => rfl
    | none => simp [List.find?_cons, matchesSelector_fresh sel sel2 v hk hk2 hne]

theorem mem_modifyFirst (p : MetaEl → Bool) (f : MetaEl → MetaEl) (l : List MetaEl)
    (x : MetaEl) (hx : x ∈ modifyFirst p f l) :
    x ∈ l ∨ ∃ el ∈ l, p el = true ∧ x = f el := by
  induction l with
  | nil => simp [modifyFirst] at hx
  | cons el rest ih =>
    by_cases hp : p el = true
    · simp only [modifyFirst, hp, if_true, List.mem_cons] at hx
      rcases hx with rfl | hx
      · exact Or.inr ⟨el, List.mem_cons_self _ _, hp, rfl⟩
      · exact Or.inl (List.mem_cons_of_mem _ hx)
    · simp only [modifyFirst, hp, Bool.false_eq_true, if_false, List.mem_cons] at hx
      rcases hx with rfl | hx
      · exact Or.inl (List.mem_cons_self _ _)
      · rcases ih hx with h | ⟨e, he, hpe, hxe⟩
        · exact Or.inl (List.mem_cons_of_mem _ h)
        · exact Or.inr ⟨e, List.mem_cons_of_mem _ he, hpe, hxe⟩

theorem separate_setAttrs (sel : Selector) (v : Str) (el : MetaEl)
    (hsep : el.name = none ∨ el.property = none)
    (hm : matchesSelector sel el = true ∨ el = ⟨none, none, none⟩) :
    (setAttrs [(sel.key, sel.value), (.content, v)] el).name = none ∨
    (setAttrs [(sel.key, sel.value), (.content, v)] el).property = none := by
  obtain ⟨k, x⟩ := sel
  obtain ⟨n, pr, c⟩ := el
  cases k <;> simp only [setAttrs, List.foldl_cons, List.foldl_nil, MetaEl.set]
  · right
    rcases hm with h | h
    · have hn : n = some x := by simpa [matchesSelector, MetaEl.get] using h
      rcases hsep with h1 | h1
      · simp only at h1; rw [hn] at h1; cases h1
      · exact h1
    · cases h; rfl
  · left
    rcases hm with h | h
    · have hn : pr = some x := by simpa [matchesSelector, MetaEl.get] using h
      rcases hsep with h1 | h1
      · exact h1
      · simp only at h1; rw [hn] at h1; cases h1
    · cases h; rfl
  · rcases hm with h | h
    · exact hsep
    · cases h; left; rfl

/-- An upsert keeps the head free of elements that answer to two keys. -/
theorem separateKeys_ensureField (sel : Selector) (v : Str) (head : List MetaEl)
    (hsep : separateKeys head = true) :
    separateKeys (ensureField sel v head) = true := by
  have hs := (separateKeys_iff head).1 hsep
  apply (separateKeys_iff _).2
  intro x hx
  unfold ensureField ensureMeta at hx
  by_cases ha : head.any (matchesSelector sel) = true
  · rw [if_pos ha] at hx
    rcases mem_modifyFirst _ _ _ _ hx with h | ⟨el, hel, hp, rfl⟩
    · exact hs x h
    · exact separate_setAttrs sel v el (hs el hel) (Or.inl hp)
  · rw [if_neg ha, List.mem_append, List.mem_singleton] at hx
    rcases hx with h | rfl
    · exact hs x h
    · exact separate_setAttrs sel v _ (Or.inl rfl) (Or.inr rfl)

theorem separateKeys_foldl (ws : List (Selector × Str)) (head : List MetaEl)
    (hsep : separateKeys head = true) :
    separateKeys (ws.foldl (fun h w => ensureField w.1 w.2 h) head) = true := by
  induction ws generalizing head with
  | nil => exact hsep
  | cons w rest ih => exact ih _ (separateKeys_ensureField w.1 w.2 head hsep)

/-- A run of upserts leaves a field it does not write as it was. -/
theorem metaContent_foldl_other (ws : List (Selector × Str)) (head : List MetaEl)
    (sel : Selector) (hsel : sel.key ≠ .content)
    (hkeys : ∀ w ∈ ws, w.1.key ≠ .content)
    (hnot : ∀ w ∈ ws, sel ≠ w.1)
    (hsep : separateKeys head = true) :
    metaContent sel (ws.foldl (fun h w => ensureField w.1 w.2 h) head) =
      metaContent sel head := by
  induction ws generalizing head with
  | nil => rfl
  | cons w rest ih =>
    rw [List.foldl_cons,
      ih _ (fun x hx => hkeys x (List.mem_cons_of_mem _ hx))
        (fun x hx => hnot x (List.mem_cons_of_mem _ hx))
        (separateKeys_ensureField w.1 w.2 head hsep)]
    exact metaContent_ensureField_other w.1 sel w.2 head
      (hkeys w (List.mem_cons_self _ _)) hsel (hnot w (List.mem_cons_self _ _)) hsep

/-- A run of upserts on pairwise different selectors leaves each written field
at the content written for it. -/
theorem metaContent_foldl_mem (ws : List (Selector × Str)) (head : List MetaEl)
    (sel : Selector) (v : Str)
    (hkeys : ∀ w ∈ ws, w.1.key ≠ .content)
    (hnd : (ws.map Prod.fst).Nodup)
    (hmem : (sel, v) ∈ ws)
    (hsep : separateKeys head = true) :
    metaContent sel (ws.foldl (fun h w => ensureField w.1 w.2 h) head) = some v := by
  induction ws generalizing head with
  | nil => simp at hmem
  | cons w rest ih =>
    rw [List.map_cons, List.nodup_cons] at hnd
    rw [List.foldl_cons]
    rcases List.mem_cons.1 hmem with h | h
    · subst h
      rw [metaContent_foldl_other rest _ sel (hkeys _ (List.mem_cons_self _ _))
        (fun x hx => hkeys x (List.mem_cons_of_mem _ hx))
        (fun x hx he => hnd.1 (by
          have hx1 : x.1 ∈ rest.map Prod.fst := List.mem_map_of_mem Prod.fst hx
          rw [← he] at hx1
          exact hx1))
        (separateKeys_ensureField _ _ head hsep)]
      exact metaContent_ensureField_same sel v head (hkeys _ (List.mem_cons_self _ _))
    · exact ih _ (fun x hx => hkeys x (List.mem_cons_of_mem _ hx)) hnd.2 h
        (separateKeys_ensureField w.1 w.2 head hsep)

/-- The selectors written by `injectDynamicSeo`: the ten fixed ones, and the
two image selectors when the post has a cover image. -/
theorem seoWrites_selectors (post : Post) (href : Str) :
    (seoWrites post href).map Prod.fst =
      [⟨.name, "description".toList⟩, ⟨.property, "og:title".toList⟩,
       ⟨.property, "og:description".toList⟩, ⟨.property, "og:type".toList⟩,
       ⟨.property, "og:url".toList⟩, ⟨.property, "og:site_name".toList⟩] ++
      (if (match post.image with
           | some image => truthy image
           | none => false) = true then
        [⟨.property, "og:image".toList⟩, ⟨.name, "twitter:image".toList⟩] else []) ++
      [⟨.name, "twitter:card".toList⟩, ⟨.name, "twitter:title".toList⟩,
       ⟨.name, "twitter:description".toList⟩] := by
  unfold seoWrites
  cases post.image with
  | none => simp
  | some image =>
    by_cases ht : truthy image = true
    · simp [ht]
    · simp [ht]

theorem seoWrites_keys (post : Post) (href : Str) :
    ∀ w ∈ seoWrites post href, w.1.key ≠ .content := by
  have hall : ((seoWrites post href).map Prod.fst).all
      (fun sel => decide (sel.key ≠ .content)) = true := by
    rw [seoWrites_selectors]
    split <;> decide
  intro w hw
  have := List.all_eq_true.1 hall w.1 (List.mem_map_of_mem Prod.fst hw)
  simpa using this

theorem seoWrites_nodup (post : Post) (href : Str) :
    ((seoWrites post href).map Prod.fst).Nodup := by
  rw [seoWrites_selectors]
  split <;> decide

/-- A field that `injectDynamicSeo` writes holds the content written for it. -/
theorem metaContent_injectDynamicSeo_written (post : Post) (pg : PostPage)
    (sel : Selector) (v : Str) (hsep : separateKeys pg.head = true)
    (hmem : (sel, v) ∈ seoWrites post pg.href) :
    metaContent sel (injectDynamicSeo post pg).head = some v := by
  rw [injectDynamicSeo_head]
  exact metaContent_foldl_mem _ _ sel v (seoWrites_keys post pg.href)
    (seoWrites_nodup post pg.href) hmem hsep

/-- A field that `injectDynamicSeo` does not write keeps its content. -/
theorem metaContent_injectDynamicSeo_unwritten (post : Post) (pg : PostPage)
    (sel : Selector) (hsep : separateKeys pg.head = true) (hk : sel.key ≠ .content)
    (hnot : sel ∉ (seoWrites post pg.href).map Prod.fst) :
    metaContent sel (injectDynamicSeo post pg).head = metaContent sel pg.head := by
  rw [injectDynamicSeo_head]
  exact metaContent_foldl_other _ _ sel hk (seoWrites_keys post pg.href)
    (fun w hw he => hnot (he ▸ List.mem_map_of_mem Prod.fst hw)) hsep

theorem separateKeys_injectDynamicSeo (post : Post) (pg : PostPage)
    (hsep : separateKeys pg.head = true) :
    separateKeys (injectDynamicSeo post pg).head = true := by
  rw [injectDynamicSeo_head]
  exact separateKeys_foldl _ _ hsep

/-- The image fields are written when the post has a cover image. -/
theorem seoWrites_image_mem (post : Post) (href image : Str)
    (hi : post.image = some image) (ht : truthy image = true) :
    ((⟨.property, "og:image".toList⟩ : Selector), image) ∈ seoWrites post href ∧
    ((⟨.name, "twitter:image".toList⟩ : Selector), image) ∈ seoWrites post href := by
  simp [seoWrites, hi, ht]

/-- The image fields are not written when the post has no cover image. -/
theorem seoWrites_image_not_mem (post : Post) (href : Str)
    (hi : ∀ image, post.image = some image → truthy image = false) :
    (⟨.property, "og:image".toList⟩ : Selector) ∉ (seoWrites post href).map Prod.fst ∧
    (⟨.name, "twitter:image".toList⟩ : Selector) ∉ (seoWrites post href).map Prod.fst := by
  have hc : (match post.image with
      | some image => truthy image
      | none => false) = false := by
    cases h : post.image with
    | none => rfl
    | some image => exact hi image h
  rw [seoWrites_selectors, hc]
  decide

/-- C10, refuted as stated: after `injectDynamicSeo` on a post with the cover
"images/cover.png" and then on post `a2`, which has no image, `og:image` and
`twitter:image` still hold the first post's image. -/
theorem injectDynamicSeo_stale_image_counterexample :
    postWithCover.image = some "images/cover.png".toList ∧
    postA2.image = none ∧
    metaContent ⟨.property, "og:image".toList⟩
        (injectDynamicSeo postA2 (injectDynamicSeo postWithCover samplePostPage)).head
      = some "images/cover.png".toList ∧
    metaContent ⟨.name, "twitter:image".toList⟩
        (injectDynamicSeo postA2 (injectDynamicSeo postWithCover samplePostPage)).head
      = some "images/cover.png".toList := by
  decide

/-- C10, amended: in a head where no `meta` element carries both a name and a
property, after `injectDynamicSeo(p1)` then `injectDynamicSeo(p2)` the title
and the ten fields every call writes hold the values derived from `p2` and the
page URL; the two image fields hold the image of `p2` when it has one, and
otherwise stay as the first call left them, at the image of `p1` when it has one. -/
theorem injectDynamicSeo_twice (p1 p2 : Post) (pg : PostPage)
    (hsep : separateKeys pg.head = true) :
    (injectDynamicSeo p2 (injectDynamicSeo p1 pg)).title = seoTitleOf p2 ∧
    metaContent ⟨.name, "description".toList⟩
      (injectDynamicSeo p2 (injectDynamicSeo p1 pg)).head = some (descriptionOf p2) ∧
    metaContent ⟨.property, "og:title".toList⟩
      (injectDynamicSeo p2 (injectDynamicSeo p1 pg)).head = some (seoTitleOf p2) ∧
    metaContent ⟨.property, "og:description".toList⟩
      (injectDynamicSeo p2 (injectDynamicSeo p1 pg)).head = some (descriptionOf p2) ∧
    metaContent ⟨.property, "og:type".toList⟩
      (injectDynamicSeo p2 (injectDynamicSeo p1 pg)).head = some "article".toList ∧
    metaContent ⟨.property, "og:url".toList⟩
      (injectDynamicSeo p2 (injectDynamicSeo p1 pg)).head = some pg.href ∧
    metaContent ⟨.property, "og:site_name".toList⟩
      (injectDynamicSeo p2 (injectDynamicSeo p1 pg)).head = some siteName ∧
    metaContent ⟨.name, "twitter:card".toList⟩
      (injectDynamicSeo p2 (injectDynamicSeo p1 pg)).head
        = some "summary_large_image".toList ∧
    metaContent ⟨.name, "twitter:title".toList⟩
      (injectDynamicSeo p2 (injectDynamicSeo p1 pg)).head = some (seoTitleOf p2) ∧
    metaContent ⟨.name, "twitter:description".toList⟩
      (injectDynamicSeo p2 (injectDynamicSeo p1 pg)).head = some (descriptionOf p2) ∧
    (∀ image, p2.image = some image → truthy image = true →
      metaContent ⟨.property, "og:image".toList⟩
        (injectDynamicSeo p2 (injectDynamicSeo p1 pg)).head = some image ∧
      metaContent ⟨.name, "twitter:image".toList⟩
        (injectDynamicSeo p2 (injectDynamicSeo p1 pg)).head = some image) ∧
    ((∀ image, p2.image = some image → truthy image = false) →
      metaContent ⟨.property, "og:image".toList⟩
          (injectDynamicSeo p2 (injectDynamicSeo p1 pg)).head
        = metaContent ⟨.property, "og:image".toList⟩ (injectDynamicSeo p1 pg).head ∧
      metaContent ⟨.name, "twitter:image".toList⟩
          (injectDynamicSeo p2 (injectDynamicSeo p1 pg)).head
        = metaContent ⟨.name, "twitter:image".toList⟩ (injectDynamicSeo p1 pg).head) ∧
    ((∀ image, p2.image = some image → truthy image = false) →
      ∀ image, p1.image = some image → truthy image = true →
        metaContent ⟨.property, "og:image".toList⟩
          (injectDynamicSeo p2 (injectDynamicSeo p1 pg)).head = some image ∧
        metaContent ⟨.name, "twitter:image".toList⟩
          (injectDynamicSeo p2 (injectDynamicSeo p1 pg)).head = some image) := by
  have hsep1 := separateKeys_injectDynamicSeo p1 pg hsep
  have w : ∀ sel v, (sel, v) ∈ seoWrites p2 (injectDynamicSeo p1 pg).href →
      metaContent sel (injectDynamicSeo p2 (injectDynamicSeo p1 pg)).head = some v :=
    fun sel v h => metaContent_injectDynamicSeo_written p2 _ sel v hsep1 h
  have keep : (∀ image, p2.image = some image → truthy image = false) →
      metaContent ⟨.property, "og:image".toList⟩
          (injectDynamicSeo p2 (injectDynamicSeo p1 pg)).head
        = metaContent ⟨.property, "og:image".toList⟩ (injectDynamicSeo p1 pg).head ∧
      metaContent ⟨.name, "twitter:image".toList⟩
          (injectDynamicSeo p2 (injectDynamicSeo p1 pg)).head
        = metaContent ⟨.name, "twitter:image".toList⟩ (injectDynamicSeo p1 pg).head := by
    intro h2
    obtain ⟨n1, n2⟩ := seoWrites_image_not_mem p2 (injectDynamicSeo p1 pg).href h2
    exact ⟨metaContent_injectDynamicSeo_unwritten p2 _ _ hsep1 (by decide) n1,
      metaContent_injectDynamicSeo_unwritten p2 _ _ hsep1 (by decide) n2⟩
  refine ⟨rfl, w _ _ ?_, w _ _ ?_, w _ _ ?_, w _ _ ?_, w _ _ ?_, w _ _ ?_, w _ _ ?_,
    w _ _ ?_, w _ _ ?_, ?_, keep, ?_⟩
  · simp [seoWrites]
  · simp [seoWrites]
  · simp [seoWrites]
  · simp [seoWrites]
  · simp [seoWrites, injectDynamicSeo_href]
  · simp [seoWrites]
  · simp [seoWrites]
  · simp [seoWrites]
  · simp [seoWrites]
  · intro image hi ht
    obtain ⟨m1, m2⟩ := seoWrites_image_mem p2 (injectDynamicSeo p1 pg).href image hi ht
    exact ⟨w _ _ m1, w _ _ m2⟩
  · intro h2 image hi ht
    obtain ⟨k1, k2⟩ := keep h2
    obtain ⟨m1, m2⟩ := seoWrites_image_mem p1 pg.href image hi ht
    rw [k1, k2]
    exact ⟨metaContent_injectDynamicSeo_written p1 pg _ _ hsep m1,
      metaContent_injectDynamicSeo_written p1 pg _ _ hsep m2⟩

/-- C10 amended, at the example: a post with a cover image, then post `a2`,
on a page with an empty head. -/
theorem injectDynamicSeo_twice_witness :
    separateKeys samplePostPage.head = true ∧
    (injectDynamicSeo postA2 (injectDynamicSeo postWithCover samplePostPage)).title
      = seoTitleOf postA2 ∧
    metaContent ⟨.name, "description".toList⟩
      (injectDynamicSeo postA2 (injectDynamicSeo postWithCover samplePostPage)).head
      = some (descriptionOf postA2) :=
  ⟨by decide,
    (injectDynamicSeo_twice postWithCover postA2 samplePostPage (by decide)).1,
    (injectDynamicSeo_twice postWithCover postA2 samplePostPage (by decide)).2.1⟩

/-! ## Further claims on the filter -/

/-- C14, the code on the failing inputs: when the grid exists and the
"no-posts" placeholder does not, `displayPosts` ends by throwing, for the empty
list and for every other list. -/
theorem displayPosts_throws_without_placeholder (posts : List Post) (pg : BlogPage)
    (grid : Grid) :
    (displayPosts posts { pg with postsContainer := some grid, noPostsMessage := none }).threw
      = true := by
  unfold displayPosts
  by_cases hl : (posts.length == 0) = true <;> simp [hl]

theorem filter_category_sublist (lower : Str → Str) (k : Option Str) (posts : List Post) :
    (if k ≠ some "all".toList then posts.filter (matchesCategory lower k)
      else posts).Sublist posts := by
  split
  · exact List.filter_sublist _
  · exact List.Sublist.refl _

/-- C15: whatever function `toLowerCase` is, the view computed by
`performSearch`, and the one computed by `filterPostsByCategory`, is a sublist
of the index: its posts keep the order they have in `allPosts` and none is
repeated beyond its occurrences there. -/
theorem performSearch_sublist (lower : Str → Str) (s c : Str) (pg : BlogPage) :
    (performSearch lower s pg).page.filteredPosts.Sublist pg.allPosts ∧
    (filterPostsByCategory lower c pg).page.filteredPosts.Sublist pg.allPosts := by
  have h1 : ∀ t, (performSearch lower t pg).page.filteredPosts.Sublist pg.allPosts := by
    intro t
    rw [performSearch_filteredPosts]
    split
    · exact filter_category_sublist _ _ _
    · exact (List.filter_sublist _).trans (filter_category_sublist _ _ _)
  refine ⟨h1 s, ?_⟩
  rw [filterPostsByCategory_filteredPosts]
  have h2 : (if c = "all".toList then pg.allPosts
      else pg.allPosts.filter (matchesCategory lower (some c))).Sublist pg.allPosts := by
    split
    · exact List.Sublist.refl _
    · exact List.filter_sublist _
  cases pg.searchInput with
  | none => exact h2
  | some value =>
    simp only
    split
    · exact h1 value
    · exact h2

theorem dropWhile_of_all (p : Char → Bool) (u : Str) (h : ∀ c ∈ u, p c = true) :
    u.dropWhile p = [] := by
  induction u with
  | nil => rfl
  | cons a r ih =>
    rw [List.dropWhile_cons, if_pos (h a (List.mem_cons_self _ _))]
    exact ih (fun c hc => h c (List.mem_cons_of_mem _ hc))

/-- Whitespace around a string does not survive `trim`. -/
theorem trim_append (u t v : Str) (hu : ∀ c ∈ u, isWhiteSpace c = true)
    (hv : ∀ c ∈ v, isWhiteSpace c = true) : trim (u ++ t ++ v) = trim t := by
  unfold trim
  rw [List.append_assoc, List.dropWhile_append_of_pos hu, List.dropWhile_append]
  have hvr : ∀ c ∈ v.reverse, isWhiteSpace c = true := fun c hc => hv c (List.mem_reverse.1 hc)
  by_cases he : (t.dropWhile isWhiteSpace).isEmpty = true
  · rw [if_pos he, dropWhile_of_all _ v hv]
    rw [List.isEmpty_iff] at he
    rw [he]
  · rw [if_neg he, List.reverse_append, List.dropWhile_append_of_pos hvr]

/-- ASCII lowercasing leaves a whitespace character as it is. -/
theorem toLower_of_isWhiteSpace (c : Char) (h : isWhiteSpace c = true) : c.toLower = c := by
  by_cases hr : c.toNat ≥ 65 ∧ c.toNat ≤ 90
  · exfalso
    obtain ⟨ha, hb⟩ := hr
    unfold isWhiteSpace at h
    generalize c.toNat = n at ha hb h
    interval_cases n <;> simp at h
  · unfold Char.toLower
    simp only [hr, if_false]

/-- ASCII lowercasing leaves whitespace before and after a string as it is and
lowercases what lies between as it does alone. -/
theorem asciiToLowerCase_frame (u v : Str) (hu : ∀ c ∈ u, isWhiteSpace c = true)
    (hv : ∀ c ∈ v, isWhiteSpace c = true) (x : Str) :
    asciiToLowerCase (u ++ x ++ v) = u ++ asciiToLowerCase x ++ v := by
  have hfix : ∀ w : Str, (∀ c ∈ w, isWhiteSpace c = true) → asciiToLowerCase w = w := by
    intro w hw
    unfold asciiToLowerCase
    conv_rhs => rw [← List.map_id w]
    apply List.map_congr_left
    intro c hc
    exact toLower_of_isWhiteSpace c (hw c hc)
  have hmap : asciiToLowerCase (u ++ x ++ v)
      = asciiToLowerCase u ++ asciiToLowerCase x ++ asciiToLowerCase v := by
    simp [asciiToLowerCase]
  rw [hmap, hfix u hu, hfix v hv]

/-- C16: for a `toLowerCase` that leaves the whitespace `u` before and `v` after
a string as it is and lowercases what lies between as it does alone, the
whitespace around the search term does not change what `performSearch` does,
nor the view `filterPostsByCategory` computes from the search box; the
whitespace-only term `u ++ v` gives the view of the empty term. -/
theorem performSearch_trim_invariant (lower : Str → Str) (pg : BlogPage) (c u t v : Str)
    (hu : ∀ x ∈ u, isWhiteSpace x = true) (hv : ∀ x ∈ v, isWhiteSpace x = true)
    (hlower : ∀ x, lower (u ++ x ++ v) = u ++ lower x ++ v) :
    performSearch lower (u ++ t ++ v) pg = performSearch lower t pg ∧
    (filterPostsByCategory lower c
        { pg with searchInput := some (u ++ t ++ v) }).page.filteredPosts
      = (filterPostsByCategory lower c { pg with searchInput := some t }).page.filteredPosts ∧
    (performSearch lower (u ++ v) pg).page.filteredPosts
      = (performSearch lower [] pg).page.filteredPosts := by
  have key : ∀ t, trim (lower (u ++ t ++ v)) = trim (lower t) := by
    intro t
    rw [hlower t, trim_append u (lower t) v hu hv]
  have hps : ∀ t, performSearch lower (u ++ t ++ v) pg = performSearch lower t pg := by
    intro t
    unfold performSearch
    simp only [key]
  refine ⟨hps t, ?_, ?_⟩
  · rw [filterPostsByCategory_filteredPosts, filterPostsByCategory_filteredPosts]
    simp only [trim_append u t v hu hv]
    split
    · rw [performSearch_filteredPosts, performSearch_filteredPosts, key]
      rfl
    · rfl
  · have h := hps []
    rw [List.append_nil] at h
    rw [h]

/-- C16 at the example index, with ASCII lowercasing: " fire  " against "fire". -/
theorem performSearch_trim_invariant_witness :
    (∀ x ∈ " ".toList, isWhiteSpace x = true) ∧
    (∀ x ∈ "  ".toList, isWhiteSpace x = true) ∧
    (∀ x, asciiToLowerCase (" ".toList ++ x ++ "  ".toList)
      = " ".toList ++ asciiToLowerCase x ++ "  ".toList) ∧
    performSearch asciiToLowerCase (" ".toList ++ "fire".toList ++ "  ".toList)
        (samplePage [⟨true, some "all".toList⟩] none)
      = performSearch asciiToLowerCase "fire".toList
          (samplePage [⟨true, some "all".toList⟩] none) :=
  ⟨by decide, by decide,
    asciiToLowerCase_frame " ".toList "  ".toList (by decide) (by decide),
    (performSearch_trim_invariant asciiToLowerCase
      (samplePage [⟨true, some "all".toList⟩] none) []
      " ".toList "fire".toList "  ".toList (by decide) (by decide)
      (asciiToLowerCase_frame " ".toList "  ".toList (by decide) (by decide))).1⟩

/-- C17: whatever function `toLowerCase` is, filtering the view again with the
same active category and the same term returns the view unchanged. -/
theorem performSearch_idempotent (lower : Str → Str) (t : Str) (pg : BlogPage) :
    (performSearch lower t
        { pg with allPosts :=
            (performSearch lower t pg).page.filteredPosts }).page.filteredPosts
      = (performSearch lower t pg).page.filteredPosts := by
  have hc : ∀ posts, currentCategory { pg with allPosts := posts } = currentCategory pg :=
    fun _ => rfl
  rw [performSearch_filteredPosts lower t { pg with allPosts := _ }, hc]
  simp only
  rw [performSearch_filteredPosts]
  by_cases ht : trim (lower t) = []
  · simp only [ht, if_true]
    split
    · rw [List.filter_filter]; simp
    · rfl
  · simp only [ht, if_false]
    split
    · simp only [List.filter_filter]
      congr 1
      funext p
      cases matchesCategory lower (currentCategory pg) p <;>
        cases matchesTerm lower (trim (lower t)) p <;> rfl
    · rw [List.filter_filter]; simp

/-- C19, the code at the failing input: for the body path "post.md", which has
no slash, the base directory is empty and the src "diagram.png" is rewritten to
the root-relative "/diagram.png". -/
theorem rewriteSrc_no_slash_root_relative :
    '/' ∉ "post.md".toList ∧
    baseDirOf "post.md".toList = [] ∧
    rewriteSrc (baseDirOf "post.md".toList) (some "diagram.png".toList)
      = some "/diagram.png".toList ∧
    startsWith "/diagram.png".toList "/".toList = true := by
  decide

/-! ## Category buttons -/

theorem mem_insert_fold (cs acc : List Str) (x : Str) :
    x ∈ cs.foldl (fun acc c => if c ∈ acc then acc else acc ++ [c]) acc ↔ x ∈ acc ∨ x ∈ cs := by
  induction cs generalizing acc with
  | nil => simp
  | cons c rest ih =>
    rw [List.foldl_cons, ih]
    by_cases hc : c ∈ acc
    · rw [if_pos hc]
      constructor
      · rintro (h | h)
        · exact Or.inl h
        · exact Or.inr (List.mem_cons_of_mem _ h)
      · rintro (h | h)
        · exact Or.inl h
        · rcases List.mem_cons.1 h with rfl | h
          · exact Or.inl hc
          · exact Or.inr h
    · rw [if_neg hc]
      simp only [List.mem_append, List.mem_singleton, List.mem_cons]
      tauto

theorem mem_categories_fold (posts : List Post) (acc : List Str) (x : Str) :
    x ∈ posts.foldl
        (fun categories post =>
          post.categories.foldl (fun acc c => if c ∈ acc then acc else acc ++ [c]) categories)
        acc ↔ x ∈ acc ∨ ∃ p ∈ posts, x ∈ p.categories := by
  induction posts generalizing acc with
  | nil => simp
  | cons p rest ih =>
    rw [List.foldl_cons, ih, mem_insert_fold]
    simp only [List.mem_cons, exists_eq_or_imp]
    tauto

/-- The labels collected by `getAllCategories` are the labels of the posts. -/
theorem mem_getAllCategories (posts : List Post) (x : Str) :
    x ∈ getAllCategories posts ↔ ∃ p ∈ posts, x ∈ p.categories := by
  unfold getAllCategories
  rw [mem_categories_fold]
  simp

/-- A post passes the category filter for the key generated from one of its labels. -/
theorem matchesCategory_generated (lower : Str → Str) (p : Post) (c : Str)
    (hc : c ∈ p.categories) :
    matchesCategory lower (some (categoryKey lower c)) p = true :=
  (matchesCategory_iff _ _ _).2 ⟨c, hc, rfl⟩

/-- C20: whatever function `toLowerCase` is, for a post `p` of the index and a
label `c` of `p`, `createCategoryFilters` makes a button whose key is `c`
lowercased with whitespace runs hyphenated; with a blank search box, filtering
by that key (through `filterPostsByCategory`, or through `performSearch` when
the button is the active one) leaves `p` in the view; and generating a key from
the key returns it unchanged, given that lowercasing the key, which is in lower
case already, returns it as it is. -/
theorem generated_key_selects (lower : Str → Str) (pg : BlogPage) (p : Post) (c : Str)
    (children : List FilterBtn) (hp : p ∈ pg.allPosts) (hc : c ∈ p.categories)
    (hs : ∀ v, pg.searchInput = some v → trim v = []) :
    (⟨false, some (replaceWhitespaceRuns (lower c))⟩ : FilterBtn)
      ∈ createCategoryFilters lower pg.allPosts children ∧
    p ∈ (filterPostsByCategory lower (categoryKey lower c) pg).page.filteredPosts ∧
    (currentCategory pg = some (categoryKey lower c) → trim (lower []) = [] →
      p ∈ (performSearch lower [] pg).page.filteredPosts) ∧
    (lower (categoryKey lower c) = categoryKey lower c →
      categoryKey lower (categoryKey lower c) = categoryKey lower c) := by
  refine ⟨?_, ?_, ?_, categoryKey_idem_of_fixed lower c⟩
  · unfold createCategoryFilters
    apply List.mem_append_right
    exact List.mem_map.2 ⟨c, (mem_getAllCategories _ _).2 ⟨p, hp, hc⟩, rfl⟩
  · have hview : p ∈ (if categoryKey lower c = "all".toList then pg.allPosts
        else pg.allPosts.filter (matchesCategory lower (some (categoryKey lower c)))) := by
      split
      · exact hp
      · exact List.mem_filter.2 ⟨hp, matchesCategory_generated lower p c hc⟩
    rw [filterPostsByCategory_filteredPosts]
    cases hsi : pg.searchInput with
    | none => exact hview
    | some value =>
      have hb : truthy (trim value) = false := by rw [hs value hsi]; rfl
      simp only [hb, Bool.false_eq_true, if_false]
      exact hview
  · intro hk ht
    rw [performSearch_filteredPosts, hk, if_pos ht]
    split
    · exact List.mem_filter.2 ⟨hp, matchesCategory_generated lower p c hc⟩
    · exact hp

/-- C20 at the example index, with ASCII lowercasing: post `a1` and its label
"Web Security". -/
theorem generated_key_selects_witness :
    postA1 ∈ (samplePage [] (some [])).allPosts ∧
    "Web Security".toList ∈ postA1.categories ∧
    (⟨false, some (replaceWhitespaceRuns (asciiToLowerCase "Web Security".toList))⟩ : FilterBtn)
      ∈ createCategoryFilters asciiToLowerCase (samplePage [] (some [])).allPosts [] ∧
    postA1 ∈ (filterPostsByCategory asciiToLowerCase
      (categoryKey asciiToLowerCase "Web Security".toList)
      (samplePage [] (some []))).page.filteredPosts ∧
    asciiToLowerCase (categoryKey asciiToLowerCase "Web Security".toList)
      = categoryKey asciiToLowerCase "Web Security".toList ∧
    categoryKey asciiToLowerCase (categoryKey asciiToLowerCase "Web Security".toList)
      = categoryKey asciiToLowerCase "Web Security".toList :=
  ⟨by decide, by decide,
    (generated_key_selects asciiToLowerCase (samplePage [] (some [])) postA1
      "Web Security".toList [] (by decide) (by decide) (by intro v hv; cases hv; rfl)).1,
    (generated_key_selects asciiToLowerCase (samplePage [] (some [])) postA1
      "Web Security".toList [] (by decide) (by decide) (by intro v hv; cases hv; rfl)).2.1,
    by decide,
    (generated_key_selects asciiToLowerCase (samplePage [] (some [])) postA1
      "Web Security".toList [] (by decide) (by decide)
      (by intro v hv; cases hv; rfl)).2.2.2 (by decide)⟩

/-! ## The detail page -/

theorem showErrorDetail_present (message : Str) (dp : DetailPage) (c : Content)
    (hc : dp.page.postContent = some c) :
    showErrorDetail message dp =
      ⟨{ dp with page := { dp.page with postContent := some (.errorMessage message) } },
        false⟩ := by
  unfold showErrorDetail showError
  rw [hc]

theorem find_id_none (posts : List Post) (id : Str) (h : ∀ p ∈ posts, p.id ≠ id) :
    posts.find? (fun post => decide (post.id = id)) = none := by
  apply List.find?_eq_none.2
  intro p hp
  simpa using h p hp

/-- C13: with the index loaded and a requested id that is missing, empty or
the id of no post, `initializePostPage` (on a page that has its content area)
ends without throwing, with "Post not found" in the content area and with the
title, the metadata and the header fields as they were. -/
theorem initializePostPage_not_found (formatDate : Str → Str)
    (marked : Str → List HtmlNode) (fetch : Str → FetchResult) (posts : List Post)
    (postId : Option Str) (dp : DetailPage) (c : Content)
    (hc : dp.page.postContent = some c)
    (hid : postId = none ∨ postId = some [] ∨
      ∃ id, postId = some id ∧ ∀ p ∈ posts, p.id ≠ id) :
    (initializePostPage formatDate marked fetch postId (.loaded posts) dp).threw = false ∧
    (initializePostPage formatDate marked fetch postId (.loaded posts) dp).detail.page.postContent
      = some (.errorMessage "Post not found".toList) ∧
    (initializePostPage formatDate marked fetch postId (.loaded posts) dp).detail.page.title
      = dp.page.title ∧
    (initializePostPage formatDate marked fetch postId (.loaded posts) dp).detail.page.head
      = dp.page.head ∧
    (initializePostPage formatDate marked fetch postId (.loaded posts) dp).detail.header
      = dp.header := by
  have hshow := showErrorDetail_present "Post not found".toList dp c hc
  have hempty : initializePostPage formatDate marked fetch (some []) (.loaded posts) dp
      = showErrorDetail "Post not found".toList dp := by
    simp [initializePostPage, truthy]
  have hnone : initializePostPage formatDate marked fetch none (.loaded posts) dp
      = showErrorDetail "Post not found".toList dp := rfl
  rcases hid with rfl | rfl | ⟨id, rfl, hno⟩
  · rw [hnone, hshow]
    exact ⟨rfl, rfl, rfl, rfl, rfl⟩
  · rw [hempty, hshow]
    exact ⟨rfl, rfl, rfl, rfl, rfl⟩
  · by_cases ht : truthy id = true
    · have hfind := find_id_none posts id hno
      have hrun : initializePostPage formatDate marked fetch (some id) (.loaded posts) dp =
          ⟨⟨{ dp.page with allPosts := posts, currentPost := none,
                           postContent := some (.errorMessage "Post not found".toList) },
              dp.header⟩, false⟩ := by
        simp [initializePostPage, ht, loadPostData, loadPostContent, hfind,
          showErrorDetail, showError, hc]
      rw [hrun]
      exact ⟨rfl, rfl, rfl, rfl, rfl⟩
    · have hid0 : id = [] := by
        cases id with
        | nil => rfl
        | cons a r => simp [truthy] at ht
      subst hid0
      rw [hempty, hshow]
      exact ⟨rfl, rfl, rfl, rfl, rfl⟩

/-- C13 at the example index: the requested id "zzz" is the id of no post. -/
theorem initializePostPage_not_found_witness :
    initialDetailPage.page.postContent = some .initial ∧
    (∀ p ∈ [postA1, postA2], p.id ≠ "zzz".toList) ∧
    (initializePostPage (fun d => d) (fun md => [HtmlNode.other md]) (fun _ => .rejected)
        (some "zzz".toList) (.loaded [postA1, postA2]) initialDetailPage).threw = false ∧
    (initializePostPage (fun d => d) (fun md => [HtmlNode.other md]) (fun _ => .rejected)
        (some "zzz".toList) (.loaded [postA1, postA2]) initialDetailPage).detail.page.postContent
      = some (.errorMessage "Post not found".toList) :=
  ⟨rfl, by decide,
    (initializePostPage_not_found (fun d => d) (fun md => [HtmlNode.other md])
      (fun _ => .rejected) [postA1, postA2] (some "zzz".toList) initialDetailPage .initial rfl
      (Or.inr (Or.inr ⟨"zzz".toList, rfl, by decide⟩))).1,
    (initializePostPage_not_found (fun d => d) (fun md => [HtmlNode.other md])
      (fun _ => .rejected) [postA1, postA2] (some "zzz".toList) initialDetailPage .initial rfl
      (Or.inr (Or.inr ⟨"zzz".toList, rfl, by decide⟩))).2.1⟩

/-- C18, the code at the failing input: the id "a1" is requested and the index
fails to load; `loadPostData` shows "Unable to load post data", then
`loadPostContent` runs on the empty index and replaces it, so the page ends
with "Post not found" in the content area. -/
theorem initializePostPage_load_failure_overwritten :
    (loadPostData .failed initialDetailPage).detail.page.postContent
      = some (.errorMessage "Unable to load post data".toList) ∧
    (initializePostPage (fun d => d) (fun md => [HtmlNode.other md]) (fun _ => .rejected)
        (some "a1".toList) .failed initialDetailPage).detail.page.postContent
      = some (.errorMessage "Post not found".toList) ∧
    (initializePostPage (fun d => d) (fun md => [HtmlNode.other md]) (fun _ => .rejected)
        (some "a1".toList) .failed initialDetailPage).detail.page.postContent
      ≠ some (.errorMessage "Unable to load post data".toList) := by
  decide

/-! ## Upserts -/

/-- The write of one upsert on an element. -/
theorem setAttrs_field (sel : Selector) (v : Str) (el : MetaEl) :
    setAttrs [(sel.key, sel.value), (.content, v)] el
      = (el.set sel.key sel.value).set .content v := rfl

/-- On an element that answers to the selector, the write only sets the content. -/
theorem setAttrs_of_matches (sel : Selector) (v : Str) (el : MetaEl)
    (hk : sel.key ≠ .content) (hm : matchesSelector sel el = true) :
    setAttrs [(sel.key, sel.value), (.content, v)] el = { el with content := some v } := by
  obtain ⟨k, x⟩ := sel
  obtain ⟨n, pr, c⟩ := el
  cases k with
  | name =>
    have : n = some x := by simpa [matchesSelector, MetaEl.get] using hm
    subst this; rfl
  | property =>
    have : pr = some x := by simpa [matchesSelector, MetaEl.get] using hm
    subst this; rfl
  | content => exact absurd rfl hk

/-- Whether an element answers to a selector depends on its name and property only. -/
theorem matchesSelector_congr (sel : Selector) (a b : MetaEl) (hk : sel.key ≠ .content)
    (h : skeleton a = skeleton b) : matchesSelector sel a = matchesSelector sel b := by
  obtain ⟨k, x⟩ := sel
  obtain ⟨n, pr, c⟩ := a
  obtain ⟨n2, pr2, c2⟩ := b
  simp only [skeleton, Prod.mk.injEq] at h
  obtain ⟨h1, h2⟩ := h
  subst h1; subst h2
  cases k with
  | name => rfl
  | property => rfl
  | content => exact absurd rfl hk

theorem ensureField_nil (sel : Selector) (v : Str) :
    ensureField sel v [] = [setAttrs [(sel.key, sel.value), (.content, v)] ⟨none, none, none⟩] :=
  rfl

theorem ensureField_cons (sel : Selector) (v : Str) (el : MetaEl) (rest : List MetaEl) :
    ensureField sel v (el :: rest) =
      if matchesSelector sel el = true then
        setAttrs [(sel.key, sel.value), (.content, v)] el :: rest
      else el :: ensureField sel v rest := by
  unfold ensureField ensureMeta
  by_cases hm : matchesSelector sel el = true
  · simp [hm, modifyFirst]
  · by_cases ha : rest.any (matchesSelector sel) = true
    · simp [hm, ha, modifyFirst]
    · simp [hm, ha, modifyFirst]

theorem slots_nil (sel : Selector) : slots sel [] = 0 := rfl

theorem slots_cons (sel : Selector) (el : MetaEl) (rest : List MetaEl) :
    slots sel (el :: rest) =
      (if matchesSelector sel el = true then 1 else 0) + slots sel rest := by
  unfold slots
  by_cases hm : matchesSelector sel el = true
  · simp [hm, List.filter_cons]; omega
  · simp [hm, List.filter_cons]

/-- The element created for a selector answers to that selector only. -/
theorem matchesSelector_fresh_iff (sel sel2 : Selector) (v : Str)
    (hk : sel.key ≠ .content) (hk2 : sel2.key ≠ .content) :
    matchesSelector sel2 (setAttrs [(sel.key, sel.value), (.content, v)] ⟨none, none, none⟩)
      = decide (sel2 = sel) := by
  by_cases he : sel2 = sel
  · subst he
    rw [matchesSelector_setAttrs sel2 v _ hk]
    simp
  · rw [matchesSelector_fresh sel sel2 v hk hk2 he]
    simp [he]

/-- One upsert adds a slot for its key when there is none, and changes the
number of slots of no other key. -/
theorem slots_ensureField (sel sel2 : Selector) (v : Str) (head : List MetaEl)
    (hk : sel.key ≠ .content) (hk2 : sel2.key ≠ .content) :
    slots sel2 (ensureField sel v head) =
      if sel2 = sel ∧ slots sel head = 0 then 1 else slots sel2 head := by
  induction head with
  | nil =>
    rw [ensureField_nil, slots_cons, matchesSelector_fresh_iff sel sel2 v hk hk2]
    by_cases he : sel2 = sel <;> simp [he, slots_nil]
  | cons el rest ih =>
    rw [ensureField_cons]
    by_cases hm : matchesSelector sel el = true
    · have hskel : matchesSelector sel2 (setAttrs [(sel.key, sel.value), (.content, v)] el)
          = matchesSelector sel2 el :=
        matchesSelector_congr sel2 _ el hk2 (by
          rw [setAttrs_of_matches sel v el hk hm]; rfl)
      have h0 : slots sel (el :: rest) ≠ 0 := by
        rw [slots_cons, if_pos hm]; omega
      rw [if_pos hm, if_neg (fun h => h0 h.2), slots_cons, slots_cons, hskel]
    · rw [if_neg hm, slots_cons, ih, slots_cons, slots_cons, if_neg hm]
      by_cases he : sel2 = sel
      · subst he
        simp only [true_and, hm, if_false, Bool.false_eq_true, Nat.zero_add]
      · simp [he]

theorem any_iff_slots (sel : Selector) (head : List MetaEl) :
    head.any (matchesSelector sel) = true ↔ slots sel head ≠ 0 := by
  induction head with
  | nil => simp [slots_nil]
  | cons el rest ih =>
    rw [List.any_cons, Bool.or_eq_true, ih, slots_cons]
    by_cases hm : matchesSelector sel el = true
    · simp [hm]
    · simp [hm]

/-- One upsert keeps the elements of the head in place, with their names and
properties, and appends a new element exactly when the key has no slot. -/
theorem skeleton_ensureField (sel : Selector) (v : Str) (head : List MetaEl)
    (hk : sel.key ≠ .content) :
    (ensureField sel v head).map skeleton =
      head.map skeleton ++ (if slots sel head = 0 then [freshSkeleton sel] else []) := by
  induction head with
  | nil =>
    rw [ensureField_nil]
    obtain ⟨k, x⟩ := sel
    cases k <;> rfl
  | cons el rest ih =>
    rw [ensureField_cons]
    by_cases hm : matchesSelector sel el = true
    · have h0 : slots sel (el :: rest) ≠ 0 := by
        rw [slots_cons, if_pos hm]; omega
      rw [if_pos hm, if_neg h0, List.append_nil, List.map_cons, List.map_cons,
        setAttrs_of_matches sel v el hk hm]
      rfl
    · rw [if_neg hm, List.map_cons, ih, slots_cons, if_neg hm, Nat.zero_add]
      rfl

/-- A run of upserts adds one slot for each of its keys that has none, and
changes the number of slots of no other key. -/
theorem slots_foldl (ws : List (Selector × Str)) (head : List MetaEl) (sel : Selector)
    (hsel : sel.key ≠ .content) (hkeys : ∀ w ∈ ws, w.1.key ≠ .content) :
    slots sel (ws.foldl (fun h w => ensureField w.1 w.2 h) head) =
      if sel ∈ ws.map Prod.fst ∧ slots sel head = 0 then 1 else slots sel head := by
  induction ws generalizing head with
  | nil => simp
  | cons w rest ih =>
    rw [List.foldl_cons, ih _ (fun x hx => hkeys x (List.mem_cons_of_mem _ hx)),
      slots_ensureField w.1 sel w.2 head (hkeys w (List.mem_cons_self _ _)) hsel]
    obtain ⟨wsel, wv⟩ := w
    simp only [List.map_cons]
    by_cases he : sel = wsel
    · subst he
      by_cases h0 : slots sel head = 0
      · rw [if_pos (⟨rfl, h0⟩ : sel = sel ∧ slots sel head = 0),
          if_neg (by rintro ⟨_, h⟩; exact absurd h (by decide)),
          if_pos ⟨List.mem_cons_self _ _, h0⟩]
      · rw [if_neg (fun h : sel = sel ∧ slots sel head = 0 => h0 h.2),
          if_neg (fun h => h0 h.2), if_neg (fun h => h0 h.2)]
    · rw [if_neg (fun h : sel = wsel ∧ slots wsel head = 0 => he h.1)]
      by_cases hc : sel ∈ rest.map Prod.fst ∧ slots sel head = 0
      · rw [if_pos hc, if_pos ⟨List.mem_cons_of_mem _ hc.1, hc.2⟩]
      · rw [if_neg hc, if_neg]
        rintro ⟨h1, h2⟩
        rcases List.mem_cons.1 h1 with h | h
        · exact he h
        · exact hc ⟨h, h2⟩

/-- A run of upserts on pairwise different keys keeps the elements of the head
in place, with their names and properties, and appends one new element for
each key that had no slot, in the order of the run. -/
theorem skeleton_foldl (ws : List (Selector × Str)) (head : List MetaEl)
    (hkeys : ∀ w ∈ ws, w.1.key ≠ .content) (hnd : (ws.map Prod.fst).Nodup) :
    (ws.foldl (fun h w => ensureField w.1 w.2 h) head).map skeleton =
      head.map skeleton ++
        ((ws.map Prod.fst).filter (fun sel => slots sel head == 0)).map freshSkeleton := by
  induction ws generalizing head with
  | nil => simp
  | cons w rest ih =>
    rw [List.map_cons, List.nodup_cons] at hnd
    have hk := hkeys w (List.mem_cons_self _ _)
    have hrest : ∀ x ∈ rest, x.1.key ≠ .content := fun x hx => hkeys x (List.mem_cons_of_mem _ hx)
    rw [List.foldl_cons, ih _ hrest hnd.2, skeleton_ensureField w.1 w.2 head hk]
    have hfilter : (rest.map Prod.fst).filter
          (fun sel => slots sel (ensureField w.1 w.2 head) == 0)
        = (rest.map Prod.fst).filter (fun sel => slots sel head == 0) := by
      apply List.filter_congr
      intro sel hmem
      obtain ⟨x, hx, rfl⟩ := List.mem_map.1 hmem
      have hne : x.1 ≠ w.1 := fun he => hnd.1 (he ▸ hmem)
      rw [slots_ensureField w.1 x.1 w.2 head hk (hrest x hx)]
      simp [hne]
    rw [hfilter, List.map_cons, List.filter_cons]
    by_cases h0 : slots w.1 head = 0
    · simp [h0]
    · simp [h0]

/-- The writes of a run on one element. -/
theorem foldl_writes_of_matches (ws : List (Selector × Str)) (el : MetaEl)
    (hkeys : ∀ w ∈ ws, w.1.key ≠ .content)
    (hm : ∀ w ∈ ws, matchesSelector w.1 el = true) :
    ws.foldl (fun e w => setAttrs [(w.1.key, w.1.value), (.content, w.2)] e) el =
      match ws.getLast? with
      | none => el
      | some w => { el with content := some w.2 } := by
  induction ws generalizing el with
  | nil => rfl
  | cons w rest ih =>
    have hw := hm w (List.mem_cons_self _ _)
    have hk := hkeys w (List.mem_cons_self _ _)
    rw [List.foldl_cons, setAttrs_of_matches w.1 w.2 el hk hw,
      ih { el with content := some w.2 } (fun x hx => hkeys x (List.mem_cons_of_mem _ hx))
        (fun x hx =>
          (matchesSelector_congr x.1 { el with content := some w.2 } el
            (hkeys x (List.mem_cons_of_mem _ hx)) rfl).trans
            (hm x (List.mem_cons_of_mem _ hx)))]
    cases rest with
    | nil => rfl
    | cons y ys =>
      rw [List.getLast?_cons_cons]
      cases hl : (y :: ys).getLast? with
      | none => simp at hl
      | some z => rfl

theorem writeAll_of_matches (ws : List (Selector × Str)) (el : MetaEl)
    (hkeys : ∀ w ∈ ws, w.1.key ≠ .content)
    (hm : ∀ w ∈ ws, matchesSelector w.1 el = true) :
    writeAll ws el =
      match ws.getLast? with
      | none => el
      | some w => { el with content := some w.2 } :=
  foldl_writes_of_matches ws el hkeys hm

theorem skeleton_writeAll (ws : List (Selector × Str)) (el : MetaEl)
    (hkeys : ∀ w ∈ ws, w.1.key ≠ .content)
    (hm : ∀ w ∈ ws, matchesSelector w.1 el = true) :
    skeleton (writeAll ws el) = skeleton el := by
  rw [writeAll_of_matches ws el hkeys hm]
  cases ws.getLast? <;> rfl

/-- Writing a run again on an element it was written on changes nothing. -/
theorem writeAll_idem (ws : List (Selector × Str)) (el : MetaEl)
    (hkeys : ∀ w ∈ ws, w.1.key ≠ .content)
    (hm : ∀ w ∈ ws, matchesSelector w.1 el = true) :
    writeAll ws (writeAll ws el) = writeAll ws el := by
  have hm2 : ∀ w ∈ ws, matchesSelector w.1 (writeAll ws el) = true := fun w hw =>
    (matchesSelector_congr w.1 _ el (hkeys w hw) (skeleton_writeAll ws el hkeys hm)).trans
      (hm w hw)
  rw [writeAll_of_matches ws (writeAll ws el) hkeys hm2, writeAll_of_matches ws el hkeys hm]
  cases ws.getLast? <;> rfl

theorem filter_matches_congr (ws : List (Selector × Str)) (a b : MetaEl)
    (hkeys : ∀ w ∈ ws, w.1.key ≠ .content) (h : skeleton a = skeleton b) :
    ws.filter (fun w => matchesSelector w.1 a) = ws.filter (fun w => matchesSelector w.1 b) ∧
    ws.filter (fun w => !matchesSelector w.1 a) = ws.filter (fun w => !matchesSelector w.1 b) := by
  constructor
  · apply List.filter_congr
    intro w hw
    exact matchesSelector_congr w.1 a b (hkeys w hw) h
  · apply List.filter_congr
    intro w hw
    rw [matchesSelector_congr w.1 a b (hkeys w hw) h]

/-- A run of upserts on a head splits along its first element: the writes of
the keys the element answers to land on it, the other upserts run on the rest. -/
theorem upsertAll_cons (ws : List (Selector × Str)) (el : MetaEl) (rest : List MetaEl)
    (hkeys : ∀ w ∈ ws, w.1.key ≠ .content) :
    upsertAll ws (el :: rest) =
      writeAll (ws.filter (fun w => matchesSelector w.1 el)) el ::
        upsertAll (ws.filter (fun w => !matchesSelector w.1 el)) rest := by
  induction ws generalizing el rest with
  | nil => rfl
  | cons w ws ih =>
    have hk := hkeys w (List.mem_cons_self _ _)
    have hrest : ∀ x ∈ ws, x.1.key ≠ .content := fun x hx => hkeys x (List.mem_cons_of_mem _ hx)
    have hstep : upsertAll (w :: ws) (el :: rest)
        = upsertAll ws (ensureField w.1 w.2 (el :: rest)) := rfl
    rw [hstep, ensureField_cons]
    by_cases hm : matchesSelector w.1 el = true
    · rw [if_pos hm, ih _ _ hrest]
      have hsk : skeleton (setAttrs [(w.1.key, w.1.value), (.content, w.2)] el) = skeleton el := by
        rw [setAttrs_of_matches w.1 w.2 el hk hm]; rfl
      obtain ⟨f1, f2⟩ := filter_matches_congr ws _ el hrest hsk
      rw [f1, f2, List.filter_cons, List.filter_cons]
      simp only [hm, if_true, Bool.not_true, Bool.false_eq_true, if_false]
      rfl
    · have hf : matchesSelector w.1 el = false := by simpa using hm
      rw [if_neg hm, ih _ _ hrest, List.filter_cons, List.filter_cons]
      simp only [hf, Bool.false_eq_true, if_false, Bool.not_false, if_true]
      rfl

theorem filter_length_le (ws : List (Selector × Str)) (q : Selector × Str → Bool) :
    (ws.filter q).length ≤ ws.length := List.length_filter_le q ws

theorem filter_keys (ws : List (Selector × Str)) (q : Selector × Str → Bool)
    (hkeys : ∀ w ∈ ws, w.1.key ≠ .content) : ∀ w ∈ ws.filter q, w.1.key ≠ .content :=
  fun w hw => hkeys w (List.mem_filter.1 hw).1

/-- On an element created for the upsert `w`, writing `w` and then a run of
further upserts again changes nothing. -/
theorem writeAll_cons_fixed (w : Selector × Str) (ws : List (Selector × Str)) (f : MetaEl)
    (hk : w.1.key ≠ .content) (hkeys : ∀ x ∈ ws, x.1.key ≠ .content)
    (hfw : matchesSelector w.1 f = true) (hfc : f.content = some w.2)
    (hm : ∀ x ∈ ws, matchesSelector x.1 f = true) :
    writeAll (w :: ws) (writeAll ws f) = writeAll ws f := by
  have hsk := skeleton_writeAll ws f hkeys hm
  have hkeys2 : ∀ x ∈ w :: ws, x.1.key ≠ .content := by
    intro x hx
    rcases List.mem_cons.1 hx with rfl | hx
    · exact hk
    · exact hkeys x hx
  have hm2 : ∀ x ∈ w :: ws, matchesSelector x.1 (writeAll ws f) = true := by
    intro x hx
    rw [matchesSelector_congr x.1 (writeAll ws f) f (hkeys2 x hx) hsk]
    rcases List.mem_cons.1 hx with rfl | hx
    · exact hfw
    · exact hm x hx
  rw [writeAll_of_matches (w :: ws) _ hkeys2 hm2, writeAll_of_matches ws f hkeys hm]
  cases ws with
  | nil =>
    obtain ⟨fn, fp, fc⟩ := f
    simp only at hfc
    subst hfc
    rfl
  | cons y ys =>
    rw [List.getLast?_cons_cons]
    cases hl : (y :: ys).getLast? with
    | none => simp at hl
    | some z => rfl

/-- Running a run of upserts a second time changes nothing. -/
theorem upsertAll_idem_aux (n : Nat) :
    ∀ (ws : List (Selector × Str)) (head : List MetaEl),
      ws.length + head.length ≤ n → (∀ w ∈ ws, w.1.key ≠ .content) →
      upsertAll ws (upsertAll ws head) = upsertAll ws head := by
  induction n with
  | zero =>
    intro ws head hn _
    have hws : ws = [] := List.eq_nil_of_length_eq_zero (by omega)
    subst hws
    rfl
  | succ n ih =>
    intro ws head hn hkeys
    cases head with
    | nil =>
      cases ws with
      | nil => rfl
      | cons w ws =>
        have hk := hkeys w (List.mem_cons_self _ _)
        have hrest : ∀ x ∈ ws, x.1.key ≠ .content :=
          fun x hx => hkeys x (List.mem_cons_of_mem _ hx)
        have hstep : upsertAll (w :: ws) []
            = upsertAll ws [setAttrs [(w.1.key, w.1.value), (.content, w.2)] ⟨none, none, none⟩] :=
          rfl
        generalize hf : setAttrs [(w.1.key, w.1.value), (.content, w.2)] ⟨none, none, none⟩ = f
          at hstep
        have hfw : matchesSelector w.1 f = true := by
          rw [← hf]; exact matchesSelector_setAttrs w.1 w.2 _ hk
        have hfc : f.content = some w.2 := by
          rw [← hf]; exact content_setAttrs w.1 w.2 _
        rw [hstep, upsertAll_cons ws f [] hrest]
        have hL1 : ∀ x ∈ ws.filter (fun x => matchesSelector x.1 f),
            matchesSelector x.1 f = true := fun x hx => (List.mem_filter.1 hx).2
        have hk1 := filter_keys ws (fun x => matchesSelector x.1 f) hrest
        have hk2 := filter_keys ws (fun x => !matchesSelector x.1 f) hrest
        have hsk := skeleton_writeAll _ f hk1 hL1
        rw [upsertAll_cons (w :: ws) _ _ hkeys]
        obtain ⟨g1, g2⟩ := filter_matches_congr (w :: ws) _ f hkeys hsk
        rw [g1, g2, List.filter_cons, List.filter_cons]
        simp only [hfw, if_true, Bool.not_true, Bool.false_eq_true, if_false]
        congr 1
        · exact writeAll_cons_fixed w _ f hk hk1 hfw hfc hL1
        · exact ih _ _ (by
            have := filter_length_le ws (fun x => !matchesSelector x.1 f)
            simp only [List.length_cons, List.length_nil] at hn ⊢
            omega) hk2
    | cons el rest =>
      have hL1 : ∀ x ∈ ws.filter (fun x => matchesSelector x.1 el),
          matchesSelector x.1 el = true := fun x hx => (List.mem_filter.1 hx).2
      have hk1 := filter_keys ws (fun x => matchesSelector x.1 el) hkeys
      have hk2 := filter_keys ws (fun x => !matchesSelector x.1 el) hkeys
      have hsk := skeleton_writeAll _ el hk1 hL1
      rw [upsertAll_cons ws el rest hkeys, upsertAll_cons ws _ _ hkeys]
      obtain ⟨g1, g2⟩ := filter_matches_congr ws _ el hkeys hsk
      rw [g1, g2, writeAll_idem _ el hk1 hL1]
      congr 1
      exact ih _ _ (by
        have := filter_length_le ws (fun x => !matchesSelector x.1 el)
        simp only [List.length_cons] at hn
        omega) hk2

theorem upsertAll_idem (ws : List (Selector × Str)) (head : List MetaEl)
    (hkeys : ∀ w ∈ ws, w.1.key ≠ .content) :
    upsertAll ws (upsertAll ws head) = upsertAll ws head :=
  upsertAll_idem_aux (ws.length + head.length) ws head (Nat.le_refl _) hkeys

/-- Applying `injectDynamicSeo` for the same post a second time changes nothing. -/
theorem injectDynamicSeo_idem (post : Post) (pg : PostPage) :
    injectDynamicSeo post (injectDynamicSeo post pg) = injectDynamicSeo post pg := by
  have hhead : (injectDynamicSeo post (injectDynamicSeo post pg)).head
      = (injectDynamicSeo post pg).head := by
    rw [injectDynamicSeo_head post (injectDynamicSeo post pg), injectDynamicSeo_href,
      injectDynamicSeo_head post pg]
    exact upsertAll_idem _ _ (seoWrites_keys post pg.href)
  have hshape : ∀ q : PostPage, injectDynamicSeo post q =
      { q with title := seoTitleOf post, head := (injectDynamicSeo post q).head } := fun _ => rfl
  rw [hshape (injectDynamicSeo post pg), hhead]
  rfl

/-- Where the first element that satisfies `q` is after a `modifyFirst` that does
not change which elements satisfy `q`: it is the same element, or its image
when it was the element modified. -/
theorem find_modifyFirst_cases (p q : MetaEl → Bool) (f : MetaEl → MetaEl)
    (hq : ∀ x, p x = true → q (f x) = q x) (l : List MetaEl) (e : MetaEl)
    (he : l.find? q = some e) :
    (modifyFirst p f l).find? q = some e ∨
    (p e = true ∧ (modifyFirst p f l).find? q = some (f e)) := by
  induction l with
  | nil => simp at he
  | cons x r ih =>
    by_cases hp : p x = true
    · by_cases hqx : q x = true
      · have hex : e = x := by
          rw [List.find?_cons, hqx] at he
          exact (Option.some.inj he).symm
        subst hex
        right
        refine ⟨hp, ?_⟩
        simp only [modifyFirst, hp, if_true]
        rw [List.find?_cons, (hq e hp).trans hqx]
      · have hqf : q x = false := by simpa using hqx
        left
        simp only [modifyFirst, hp, if_true]
        rw [List.find?_cons, (hq x hp).trans hqf]
        rw [List.find?_cons, hqf] at he
        exact he
    · by_cases hqx : q x = true
      · left
        simp only [modifyFirst, hp, Bool.false_eq_true, if_false]
        rw [List.find?_cons, hqx] at he ⊢
        exact he
      · have hqf : q x = false := by simpa using hqx
        rw [List.find?_cons, hqf] at he
        simp only [modifyFirst, hp, Bool.false_eq_true, if_false]
        rcases ih he with h | ⟨h1, h2⟩
        · left
          rw [List.find?_cons, hqf]
          exact h
        · right
          refine ⟨h1, ?_⟩
          rw [List.find?_cons, hqf]
          exact h2

/-- After an upsert the slot of its key is found, and it holds the content written. -/
theorem find_ensureField_self (sel : Selector) (v : Str) (head : List MetaEl)
    (hk : sel.key ≠ .content) :
    ∃ el, (ensureField sel v head).find? (matchesSelector sel) = some el ∧
      el.content = some v := by
  have h := metaContent_ensureField_same sel v head hk
  unfold metaContent at h
  cases hf : (ensureField sel v head).find? (matchesSelector sel) with
  | none => rw [hf] at h; simp at h
  | some el =>
    rw [hf] at h
    exact ⟨el, rfl, by simpa using h⟩

/-- After an upsert the slot of another key is the same element as before, or
that element with the content just written when both keys share it. -/
theorem find_ensureField_other (sel sel2 : Selector) (v : Str) (head : List MetaEl)
    (hk : sel.key ≠ .content) (hk2 : sel2.key ≠ .content) (e : MetaEl)
    (he : head.find? (matchesSelector sel2) = some e) :
    (ensureField sel v head).find? (matchesSelector sel2) = some e ∨
    (matchesSelector sel e = true ∧
      (ensureField sel v head).find? (matchesSelector sel2)
        = some { e with content := some v }) := by
  unfold ensureField ensureMeta
  by_cases ha : head.any (matchesSelector sel) = true
  · rw [if_pos ha]
    have hq : ∀ x, matchesSelector sel x = true →
        matchesSelector sel2 (setAttrs [(sel.key, sel.value), (.content, v)] x)
          = matchesSelector sel2 x := by
      intro x hx
      apply matchesSelector_congr sel2 _ x hk2
      rw [setAttrs_of_matches sel v x hk hx]
      rfl
    rcases find_modifyFirst_cases _ _ _ hq head e he with h | ⟨h1, h2⟩
    · exact Or.inl h
    · right
      refine ⟨h1, ?_⟩
      rw [h2, setAttrs_of_matches sel v e hk h1]
  · rw [if_neg ha, List.find?_append, he]
    left
    rfl

/-- After a run of upserts, the slot of each key of the run is found, and it
holds the content written by an upsert of the run whose key the slot answers to. -/
theorem content_upsertAll (ws : List (Selector × Str)) (head : List MetaEl)
    (hkeys : ∀ w ∈ ws, w.1.key ≠ .content) :
    ∀ x ∈ ws, ∃ el, (upsertAll ws head).find? (matchesSelector x.1) = some el ∧
      ∃ w ∈ ws, matchesSelector w.1 el = true ∧ el.content = some w.2 := by
  induction ws using List.reverseRecOn with
  | nil => intro x hx; simp at hx
  | append_singleton ws w ih =>
    have hkw : w.1.key ≠ .content := hkeys w (by simp)
    have hkws : ∀ y ∈ ws, y.1.key ≠ .content := fun y hy => hkeys y (by simp [hy])
    have hstep : upsertAll (ws ++ [w]) head = ensureField w.1 w.2 (upsertAll ws head) := by
      unfold upsertAll
      rw [List.foldl_append]
      rfl
    have hself : ∃ el, (upsertAll (ws ++ [w]) head).find? (matchesSelector w.1) = some el ∧
        ∃ y ∈ ws ++ [w], matchesSelector y.1 el = true ∧ el.content = some y.2 := by
      obtain ⟨el, hf, hc⟩ := find_ensureField_self w.1 w.2 (upsertAll ws head) hkw
      rw [hstep]
      exact ⟨el, hf, w, by simp, by simpa using List.find?_some hf, hc⟩
    intro x hx
    rcases List.mem_append.1 hx with hx | hx
    · obtain ⟨el, hf, y, hy, hmy, hcy⟩ := ih hkws x hx
      rw [hstep]
      rcases find_ensureField_other w.1 x.1 w.2 (upsertAll ws head) hkw (hkws x hx) el hf
        with h | ⟨h1, h2⟩
      · exact ⟨el, h, y, by simp [hy], hmy, hcy⟩
      · refine ⟨_, h2, w, by simp, ?_, rfl⟩
        exact (matchesSelector_congr w.1 { el with content := some w.2 } el hkw rfl).trans h1
    · rw [List.mem_singleton] at hx
      subst hx
      exact hself

theorem sharedSlotsAgree_iff (ws : List (Selector × Str)) (head : List MetaEl) :
    sharedSlotsAgree ws head = true ↔
      ∀ el ∈ head, ∀ w1 ∈ ws, ∀ w2 ∈ ws, matchesSelector w1.1 el = true →
        matchesSelector w2.1 el = true → w1.2 = w2.2 := by
  unfold sharedSlotsAgree
  simp only [List.all_eq_true, Bool.or_eq_true, Bool.not_eq_true', decide_eq_true_eq]
  constructor
  · intro h el hel w1 hw1 w2 hw2 h1 h2
    rcases h el hel w1 hw1 w2 hw2 with (h | h) | h
    · rw [h1] at h; cases h
    · rw [h2] at h; cases h
    · exact h
  · intro h el hel w1 hw1 w2 hw2
    by_cases h1 : matchesSelector w1.1 el = true
    · by_cases h2 : matchesSelector w2.1 el = true
      · exact Or.inr (h el hel w1 hw1 w2 hw2 h1 h2)
      · exact Or.inl (Or.inr (by simpa using h2))
    · exact Or.inl (Or.inl (by simpa using h1))

theorem nodup_fst_unique (ws : List (Selector × Str)) (hnd : (ws.map Prod.fst).Nodup)
    (a : Selector) (v v2 : Str) (h1 : (a, v) ∈ ws) (h2 : (a, v2) ∈ ws) : v = v2 := by
  induction ws with
  | nil => simp at h1
  | cons w rest ih =>
    rw [List.map_cons, List.nodup_cons] at hnd
    rcases List.mem_cons.1 h1 with e1 | e1
    · rcases List.mem_cons.1 h2 with e2 | e2
      · rw [← e2] at e1
        exact (Prod.mk.inj e1).2
      · exfalso
        apply hnd.1
        rw [← e1]
        exact List.mem_map.2 ⟨(a, v2), e2, rfl⟩
    · rcases List.mem_cons.1 h2 with e2 | e2
      · exfalso
        apply hnd.1
        rw [← e2]
        exact List.mem_map.2 ⟨(a, v), e1, rfl⟩
      · exact ih hnd.2 e1 e2

/-- An element with the name and property of a newly created slot answers to the
key it was created for and to no other. -/
theorem matchesSelector_of_freshSkeleton (sel sel2 : Selector) (el : MetaEl)
    (hk : sel.key ≠ .content) (hk2 : sel2.key ≠ .content)
    (h : skeleton el = freshSkeleton sel) :
    matchesSelector sel2 el = decide (sel2 = sel) := by
  have hsk : skeleton el
      = skeleton (setAttrs [(sel.key, sel.value), (.content, [])] ⟨none, none, none⟩) := by
    rw [h]
    obtain ⟨k, x⟩ := sel
    cases k <;> rfl
  rw [matchesSelector_congr sel2 el _ hk2 hsk]
  exact matchesSelector_fresh_iff sel sel2 [] hk hk2

/-- After a run of upserts on pairwise different keys, on a head where no
element answers to two keys that get different contents, every key of the run
holds the content written for it. -/
theorem metaContent_upsertAll_agree (ws : List (Selector × Str)) (head : List MetaEl)
    (hkeys : ∀ w ∈ ws, w.1.key ≠ .content) (hnd : (ws.map Prod.fst).Nodup)
    (hagree : sharedSlotsAgree ws head = true) :
    ∀ x ∈ ws, metaContent x.1 (upsertAll ws head) = some x.2 := by
  intro x hx
  obtain ⟨el, hf, w, hw, hmw, hcw⟩ := content_upsertAll ws head hkeys x hx
  have hmx : matchesSelector x.1 el = true := by simpa using List.find?_some hf
  have hmem : el ∈ upsertAll ws head := List.mem_of_find?_eq_some hf
  have hsk : skeleton el ∈ (upsertAll ws head).map skeleton := List.mem_map_of_mem skeleton hmem
  have hval : w.2 = x.2 := by
    unfold upsertAll at hsk
    rw [skeleton_foldl ws head hkeys hnd] at hsk
    rcases List.mem_append.1 hsk with h | h
    · obtain ⟨el0, hel0, he0⟩ := List.mem_map.1 h
      have h1 : matchesSelector w.1 el0 = true :=
        (matchesSelector_congr w.1 el0 el (hkeys w hw) he0).trans hmw
      have h2 : matchesSelector x.1 el0 = true :=
        (matchesSelector_congr x.1 el0 el (hkeys x hx) he0).trans hmx
      exact (sharedSlotsAgree_iff ws head).1 hagree el0 hel0 w hw x hx h1 h2
    · obtain ⟨sel, hsel, he0⟩ := List.mem_map.1 h
      obtain ⟨y, hy, rfl⟩ := List.mem_map.1 (List.mem_filter.1 hsel).1
      have hky := hkeys y hy
      have h1 := matchesSelector_of_freshSkeleton y.1 w.1 el hky (hkeys w hw) he0.symm
      have h2 := matchesSelector_of_freshSkeleton y.1 x.1 el hky (hkeys x hx) he0.symm
      rw [hmw] at h1
      rw [hmx] at h2
      have e1 : w.1 = y.1 := by simpa using h1.symm
      have e2 : x.1 = y.1 := by simpa using h2.symm
      have hw2 : (x.1, w.2) ∈ ws := by
        have : w = (x.1, w.2) := by rw [e2, ← e1]
        rw [← this]; exact hw
      exact nodup_fst_unique ws hnd x.1 w.2 x.2 hw2 hx
  unfold metaContent
  rw [hf]
  show el.content = some x.2
  rw [hcw, hval]

theorem injectDynamicSeo_head_upsertAll (post : Post) (pg : PostPage) :
    (injectDynamicSeo post pg).head = upsertAll (seoWrites post pg.href) pg.head :=
  injectDynamicSeo_head post pg

/-- C11: on a head with at most one slot per metadata key, `injectDynamicSeo`
keeps every element in place with its name and property and appends a new
element exactly for the keys it writes that had no slot; the slot of every key
it writes then holds a content written by this call for a key the slot answers
to, which is the content written for that very key when no element of the head
answers to two keys that get different contents; every key it writes has
exactly one slot; and a second application for the same post leaves the page
as the first one did. -/
theorem injectDynamicSeo_upsert (post : Post) (pg : PostPage)
    (hone : ∀ sel : Selector, sel.key ≠ .content → slots sel pg.head ≤ 1) :
    (injectDynamicSeo post pg).head.map skeleton =
      pg.head.map skeleton ++
        (((seoWrites post pg.href).map Prod.fst).filter
          (fun sel => slots sel pg.head == 0)).map freshSkeleton ∧
    (∀ x ∈ seoWrites post pg.href,
      ∃ el, (injectDynamicSeo post pg).head.find? (matchesSelector x.1) = some el ∧
        ∃ w ∈ seoWrites post pg.href,
          matchesSelector w.1 el = true ∧ el.content = some w.2) ∧
    (sharedSlotsAgree (seoWrites post pg.href) pg.head = true →
      ∀ x ∈ seoWrites post pg.href,
        metaContent x.1 (injectDynamicSeo post pg).head = some x.2) ∧
    (∀ sel ∈ (seoWrites post pg.href).map Prod.fst,
      slots sel (injectDynamicSeo post pg).head = 1) ∧
    injectDynamicSeo post (injectDynamicSeo post pg) = injectDynamicSeo post pg := by
  refine ⟨?_, ?_, ?_, ?_, injectDynamicSeo_idem post pg⟩
  · rw [injectDynamicSeo_head]
    exact skeleton_foldl _ _ (seoWrites_keys post pg.href) (seoWrites_nodup post pg.href)
  · rw [injectDynamicSeo_head_upsertAll]
    exact content_upsertAll _ _ (seoWrites_keys post pg.href)
  · intro hagree
    rw [injectDynamicSeo_head_upsertAll]
    exact metaContent_upsertAll_agree _ _ (seoWrites_keys post pg.href)
      (seoWrites_nodup post pg.href) hagree
  · intro sel hsel
    obtain ⟨w, hw, rfl⟩ := List.mem_map.1 hsel
    have hk := seoWrites_keys post pg.href w hw
    rw [injectDynamicSeo_head, slots_foldl _ _ w.1 hk (seoWrites_keys post pg.href)]
    by_cases h0 : slots w.1 pg.head = 0
    · rw [if_pos ⟨hsel, h0⟩]
    · rw [if_neg (fun h => h0 h.2)]
      have := hone w.1 hk
      omega

/-- C11 at an example with an existing slot: the head holds a `description`
element with the content "old"; after `injectDynamicSeo` for post `a2` the same
element, still first in the head, holds the excerpt of `a2`, and every key
written has one slot. -/
theorem injectDynamicSeo_upsert_witness :
    (∀ sel : Selector, sel.key ≠ .content → slots sel pageWithDescription.head ≤ 1) ∧
    metaContent ⟨.name, "description".toList⟩ pageWithDescription.head = some "old".toList ∧
    sharedSlotsAgree (seoWrites postA2 pageWithDescription.href) pageWithDescription.head
      = true ∧
    ((⟨.name, "description".toList⟩ : Selector), "...".toList)
      ∈ seoWrites postA2 pageWithDescription.href ∧
    metaContent ⟨.name, "description".toList⟩ (injectDynamicSeo postA2 pageWithDescription).head
      = some "...".toList ∧
    (injectDynamicSeo postA2 pageWithDescription).head.head?
      = some ⟨some "description".toList, none, some "...".toList⟩ ∧
    (∀ sel ∈ (seoWrites postA2 pageWithDescription.href).map Prod.fst,
      slots sel (injectDynamicSeo postA2 pageWithDescription).head = 1) ∧
    injectDynamicSeo postA2 (injectDynamicSeo postA2 pageWithDescription)
      = injectDynamicSeo postA2 pageWithDescription :=
  ⟨fun _ _ => List.length_filter_le _ _, by decide, by decide, by decide,
    (injectDynamicSeo_upsert postA2 pageWithDescription
      (fun _ _ => List.length_filter_le _ _)).2.2.1 (by decide)
      (⟨.name, "description".toList⟩, "...".toList) (by decide),
    by decide,
    (injectDynamicSeo_upsert postA2 pageWithDescription
      (fun _ _ => List.length_filter_le _ _)).2.2.2⟩

/-- C12, refuted as stated. For a post whose title holds two spaces in a row,
`og:title` holds the title as given while the document title reads back with
the spaces collapsed. On a head whose only `meta` element carries both the name
`description` and the property `og:title`, the description field ends with the
title of the post, not with its description. -/
theorem injectDynamicSeo_values_counterexample :
    metaContent ⟨.property, "og:title".toList⟩ (injectDynamicSeo postSpaced samplePostPage).head
      = some "Fire  walls | 0xos4ma".toList ∧
    documentTitle (injectDynamicSeo postSpaced samplePostPage)
      = "Fire walls | 0xos4ma".toList ∧
    descriptionOf postA2 = "...".toList ∧
    metaContent ⟨.name, "description".toList⟩ (injectDynamicSeo postA2 pageAliased).head
      = some "Firewalls | 0xos4ma".toList := by
  decide

/-- C12, amended: on a head where no `meta` element answers to two keys that
this call writes with different contents, after `injectDynamicSeo` the fields
`og:title` and `twitter:title` hold the post's `seoTitle` when it is a
non-empty string and otherwise its title followed by " | 0xos4ma", and the
document title reads back as that string with ASCII whitespace stripped and
collapsed; `description`, `og:description` and `twitter:description` hold the
post's `seoDescription` when it is a non-empty string, otherwise its excerpt
when that is non-empty, otherwise "Cybersecurity insights"; `og:type` holds
"article" and `og:site_name` holds "0xos4ma". -/
theorem injectDynamicSeo_values (post : Post) (pg : PostPage)
    (hagree : sharedSlotsAgree (seoWrites post pg.href) pg.head = true) :
    (documentTitle (injectDynamicSeo post pg) = stripAndCollapse (seoTitleOf post) ∧
      metaContent ⟨.property, "og:title".toList⟩ (injectDynamicSeo post pg).head
        = some (seoTitleOf post) ∧
      metaContent ⟨.name, "twitter:title".toList⟩ (injectDynamicSeo post pg).head
        = some (seoTitleOf post)) ∧
    (metaContent ⟨.name, "description".toList⟩ (injectDynamicSeo post pg).head
        = some (descriptionOf post) ∧
      metaContent ⟨.property, "og:description".toList⟩ (injectDynamicSeo post pg).head
        = some (descriptionOf post) ∧
      metaContent ⟨.name, "twitter:description".toList⟩ (injectDynamicSeo post pg).head
        = some (descriptionOf post)) ∧
    metaContent ⟨.property, "og:type".toList⟩ (injectDynamicSeo post pg).head
      = some "article".toList ∧
    metaContent ⟨.property, "og:site_name".toList⟩ (injectDynamicSeo post pg).head
      = some "0xos4ma".toList ∧
    ((∀ t, post.seoTitle = some t → t ≠ [] → seoTitleOf post = t) ∧
      ((post.seoTitle = none ∨ post.seoTitle = some []) →
        seoTitleOf post = post.title ++ " | 0xos4ma".toList)) ∧
    ((∀ d, post.seoDescription = some d → d ≠ [] → descriptionOf post = d) ∧
      ((post.seoDescription = none ∨ post.seoDescription = some []) →
        post.excerpt ≠ [] → descriptionOf post = post.excerpt) ∧
      ((post.seoDescription = none ∨ post.seoDescription = some []) →
        post.excerpt = [] → descriptionOf post = "Cybersecurity insights".toList)) := by
  have w : ∀ sel v, (sel, v) ∈ seoWrites post pg.href →
      metaContent sel (injectDynamicSeo post pg).head = some v := by
    intro sel v h
    rw [injectDynamicSeo_head_upsertAll]
    exact metaContent_upsertAll_agree _ _ (seoWrites_keys post pg.href)
      (seoWrites_nodup post pg.href) hagree (sel, v) h
  have htruthy : ∀ t : Str, t ≠ [] → truthy t = true := by
    intro t ht
    cases t with
    | nil => exact absurd rfl ht
    | cons a r => rfl
  refine ⟨⟨rfl, w _ _ ?_, w _ _ ?_⟩, ⟨w _ _ ?_, w _ _ ?_, w _ _ ?_⟩, w _ _ ?_, w _ _ ?_,
    ⟨?_, ?_⟩, ⟨?_, ?_, ?_⟩⟩
  · simp [seoWrites]
  · simp [seoWrites]
  · simp [seoWrites]
  · simp [seoWrites]
  · simp [seoWrites]
  · simp [seoWrites]
  · simp [seoWrites, siteName]
  · intro t ht hne
    simp [seoTitleOf, orElse, ht, htruthy t hne]
  · rintro (h | h)
    · simp [seoTitleOf, orElse, h, siteName]
    · simp [seoTitleOf, orElse, h, truthy, siteName]
  · intro d hd hne
    simp [descriptionOf, orElse, hd, htruthy d hne]
  · rintro (h | h) hne
    · simp [descriptionOf, orElse, h, htruthy _ hne]
    · simp [descriptionOf, orElse, h, truthy, hne]
  · rintro (h | h) he
    · simp [descriptionOf, orElse, h, he, truthy]
    · simp [descriptionOf, orElse, h, he, truthy]

/-- C12 amended, at an example where one element is shared: the only `meta`
element of the head carries the name `description` and the property
`og:description`, two keys that get the same content; post `a2` has no overrides. -/
theorem injectDynamicSeo_values_witness :
    sharedSlotsAgree (seoWrites postA2 pageShared.href) pageShared.head = true ∧
    documentTitle (injectDynamicSeo postA2 pageShared) = stripAndCollapse (seoTitleOf postA2) ∧
    metaContent ⟨.property, "og:title".toList⟩ (injectDynamicSeo postA2 pageShared).head
      = some (seoTitleOf postA2) ∧
    metaContent ⟨.name, "description".toList⟩ (injectDynamicSeo postA2 pageShared).head
      = some (descriptionOf postA2) ∧
    seoTitleOf postA2 = "Firewalls | 0xos4ma".toList :=
  ⟨by decide,
    (injectDynamicSeo_values postA2 pageShared (by decide)).1.1,
    (injectDynamicSeo_values postA2 pageShared (by decide)).1.2.1,
    (injectDynamicSeo_values postA2 pageShared (by decide)).2.1.1,
    by decide⟩

end Blog
